import Mathlib

/-!
Verification of the binary de Bruijn torus implementation (torus.py).

The development shallowly embeds the core of the program:
bit packing and unpacking, the Duval sequence generator, the torus state
with its parity summaries, the transpose operation and the two growth
constructions of make, including the batched flush discipline that
determines what actually reaches the backing store.

Rows are modelled as arbitrary-precision naturals exactly as the Python
code holds them; the backing file of a torus is modelled by the list of
row values that were actually written to it (field rows).
-/

namespace DBT

instance {ε : Type*} {α : Type*} [DecidableEq ε] [DecidableEq α] :
    DecidableEq (Except ε α) := fun x y =>
  match x, y with
  | .ok a, .ok b =>
    if h : a = b then isTrue (by rw [h])
    else isFalse (fun hc => h (Except.ok.inj hc))
  | .error a, .error b =>
    if h : a = b then isTrue (by rw [h])
    else isFalse (fun hc => h (Except.error.inj hc))
  | .ok _, .error _ => isFalse (fun hc => Except.noConfusion hc)
  | .error _, .ok _ => isFalse (fun hc => Except.noConfusion hc)

/-- numOfBits models the Python expression int(''.join(map(str, line)), 2)
from torus.py lines 67 and 82: the value of a most-significant-bit-first
digit list.  (Python raises on the empty string; the empty list is
unreachable in the program because the width is at least 1, and the model
returns 0 there.) -/
def numOfBits (l : List ℕ) : ℕ := l.foldl (fun a b => 2 * a + b) 0

/-- bitsOfNum models the Python expression f-string num:0{s}b from
torus.py line 73: the s most-significant-bit-first binary digits of num.
For num < 2^s this is exactly the Python string; the program only ever
formats numbers below 2^s. -/
def bitsOfNum : ℕ → ℕ → List ℕ
  | 0, _ => []
  | s + 1, v => v / 2 ^ s % 2 :: bitsOfNum s v

/-- popcountAux: fuel-driven evaluator for the number of set bits. -/
def popcountAux : ℕ → ℕ → ℕ
  | 0, _ => 0
  | fuel + 1, n => if n = 0 then 0 else n % 2 + popcountAux fuel (n / 2)

/-- popcount models Torus._popcount (torus.py line 78): the number of ones
in the binary representation of num. -/
def popcount (n : ℕ) : ℕ := popcountAux n n

/-- bytesFor models Torus._bytes (torus.py line 86): the number of bytes
required to hold n bits, (n + 7) // 8. -/
def bytesFor (n : ℕ) : ℕ := (n + 7) / 8

/-- toBytesBE models Python's num.to_bytes(length, 'big') (torus.py
line 58): the fixed-length big-endian byte list of num.  Python raises
OverflowError for num >= 256^length; the model truncates, and every use
in the development is guarded by the corresponding bound. -/
def toBytesBE : ℕ → ℕ → List ℕ
  | 0, _ => []
  | len + 1, n => toBytesBE len (n / 256) ++ [n % 256]

/-- bytesToNat models int.from_bytes(data, 'big') (torus.py line 62). -/
def bytesToNat (bs : List ℕ) : ℕ := bs.foldl (fun a b => 256 * a + b) 0

/-- pack is the Bit Codec packing contract of the specification, realised
in torus.py by _write_from_array (lines 65-68): the digit list is turned
into an integer and emitted as byteLength big-endian bytes. -/
def pack (bits : List ℕ) (byteLength : ℕ) : List ℕ :=
  toBytesBE byteLength (numOfBits bits)

/-- pyRepeat models Python list repetition, l * k. -/
def pyRepeat (l : List ℕ) (k : ℕ) : List ℕ := (List.replicate k l).flatten

/-- accXorAux: running exclusive-or accumulator. -/
def accXorAux (acc : ℕ) : List ℕ → List ℕ
  | [] => []
  | b :: rest => (acc ^^^ b) :: accXorAux (acc ^^^ b) rest

/-- accXor models itertools.accumulate(seq, operator.xor) (torus.py
lines 196-197): the running exclusive-or prefixes of seq, first element
included unchanged. -/
def accXor : List ℕ → List ℕ
  | [] => []
  | a :: rest => a :: accXorAux a rest

/-- repeatPattern models the inner loop of make (torus.py lines 222-224):
old_line_repeated = sum over i < copies of old_line shifted left by s*i. -/
def repeatPattern (s copies v : ℕ) : ℕ :=
  (List.range copies).foldl (fun acc i => acc + (v <<< (s * i))) 0

/-- minLen: the length of the shortest member, 0 for the empty list
(the length of Python's zip of the rows). -/
def minLen : List (List ℕ) → ℕ
  | [] => 0
  | l :: ls => ls.foldl (fun a x => min a x.length) l.length

/-- zipStar models Python's zip(*lines) (torus.py line 130) restricted to
its use there: the j-th output list collects the j-th element of every
input list, for j below the length of the shortest input. -/
def zipStar (ls : List (List ℕ)) : List (List ℕ) :=
  (List.range (minLen ls)).map (fun j => ls.map (fun l => l.getD j 0))

/-- extendPeriodic models the sequential copying loop of debruijn
(torus.py lines 105-106): for j below count, word[i+j] := word[j],
earlier writes visible to later reads. -/
def extendPeriodic (word : List ℕ) (i count : ℕ) : List ℕ :=
  (List.range count).foldl (fun w j => w.set (i + j) (w.getD j 0)) word

/-- dropOnes models the inner while loop of debruijn (torus.py
lines 107-109): starting from i, decrement while i is nonzero and
word[i-1] is nonzero. -/
def dropOnes (word : List ℕ) : ℕ → ℕ
  | 0 => 0
  | i + 1 => if word.getD i 0 ≠ 0 then dropOnes word i else i + 1

/-- duvalLoop: one pass of the outer while loop of debruijn (torus.py
lines 102-111), driven by fuel.  Each iteration emits word[:i] when i
divides order, extends the word periodically, recomputes i by stripping
the all-ones suffix, and sets the preceding symbol to one. -/
def duvalLoop (order : ℕ) : ℕ → List ℕ → ℕ → List ℕ
  | 0, _, _ => []
  | fuel + 1, word, i =>
    if i = 0 then []
    else
      let emitted := if order % i = 0 then word.take i else []
      let word1 := extendPeriodic word i (order - i)
      let i1 := dropOnes word1 order
      let word2 := if i1 = 0 then word1 else word1.set (i1 - 1) 1
      emitted ++ duvalLoop order fuel word2 i1

/-- debruijn models Torus.debruijn (torus.py lines 88-112), Duval's
algorithm.  The word value strictly increases below 2^order on every
iteration, so 2^order + 1 units of fuel always suffice to reach the
Python loop's natural exit. -/
def debruijn (order : ℕ) : List ℕ :=
  duvalLoop order (2 ^ order + 1) (List.replicate order 0) 1

/-- allWords n: every 0/1 word of length n, in lexicographic order. -/
def allWords : ℕ → List (List ℕ)
  | 0 => [[]]
  | n + 1 => (allWords n).map (0 :: ·) ++ (allWords n).map (1 :: ·)

/-- window sd n i: the length-n window of sd starting at position i,
with cyclic wrap-around. -/
def window (sd : List ℕ) (n i : ℕ) : List ℕ :=
  (List.range n).map (fun j => sd.getD ((i + j) % sd.length) 0)

/-- isDeBruijn n sd: sd is a binary de Bruijn sequence of order n in the
sense of the specification: it has length 2^n, consists of bits, and
every binary word of length n occurs exactly once as a cyclic window. -/
def isDeBruijn (n : ℕ) (sd : List ℕ) : Prop :=
  sd.length = 2 ^ n ∧ (∀ b ∈ sd, b < 2) ∧
    ∀ w ∈ allWords n,
      ((Finset.range (2 ^ n)).filter (fun i => window sd n i = w)).card = 1

instance (n : ℕ) (sd : List ℕ) : Decidable (isDeBruijn n sd) := by
  unfold isDeBruijn; infer_instance

/-- The errors the Torus class can signal.  dimensionMismatch and
invalidColumnParity are the two explicit ValueError raises
(torus.py lines 40 and 181); indexError models the IndexError raised by
values[0] on an empty matrix (line 36); typeError models the TypeError
raised in make when col_sums is all-ones and n = 0, where the Python
expression 2 ** (n - 1) produces the float 0.5 and range(num_copies)
fails (lines 212 and 223). -/
inductive TorusError where
  | dimensionMismatch
  | invalidColumnParity
  | indexError
  | typeError
  deriving DecidableEq

/-- The in-memory state of a Torus object together with its backing
store.  rows is the list of row values currently held by the storage
file (each written as bytesFor s big-endian bytes); row_sums and
col_sums are the incrementally maintained parity summaries. -/
structure TorusState where
  r : ℕ
  s : ℕ
  m : ℕ
  n : ℕ
  rows : List ℕ
  row_sums : ℕ
  col_sums : ℕ
  deriving DecidableEq

/-- rowParityOf: the ground-truth row parity mask recomputed from the
stored rows, exactly as the constructor builds it (torus.py lines 44-47):
for each row, shift left and add the popcount parity of the row. -/
def rowParityOf (rows : List ℕ) : ℕ :=
  rows.foldl (fun acc v => 2 * acc + popcount v % 2) 0

/-- colParityOf: the ground-truth column parity mask recomputed from the
stored rows (torus.py line 48): the exclusive-or of all rows. -/
def colParityOf (rows : List ℕ) : ℕ :=
  rows.foldl (fun acc v => acc ^^^ v) 0

/-- Torus.init models Torus.__init__ (torus.py lines 35-53): dimensions
are taken from the value matrix, the dimension invariant is checked, the
parity summaries are folded up row by row, and every row is written to
the store.  (Python reads len(values[0]) before the dimension check, so
an empty matrix raises IndexError.) -/
def Torus.init (values : List (List ℕ)) (m n : ℕ) :
    Except TorusError TorusState :=
  match values with
  | [] => .error .indexError
  | v0 :: _ =>
    let r := values.length
    let s := v0.length
    if r * s ≠ 2 ^ (m * n) then .error .dimensionMismatch
    else
      let rows := values.map numOfBits
      .ok { r := r, s := s, m := m, n := n, rows := rows,
            row_sums := rows.foldl (fun acc v => 2 * acc + popcount v % 2) 0,
            col_sums := rows.foldl (fun acc v => acc ^^^ v) 0 }

/-- transposeRows: the content transformation of transpose (torus.py
lines 129-130): unpack every row into its s bits, zip positionally, and
re-pack each resulting column as a number. -/
def transposeRows (s : ℕ) (rows : List ℕ) : List ℕ :=
  (zipStar (rows.map (bitsOfNum s))).map numOfBits

/-- Torus.transpose models Torus.transpose (torus.py lines 118-137):
the store is rewritten with the zipped rows, then dimensions and the two
parity summaries are swapped. -/
def Torus.transpose (T : TorusState) : TorusState :=
  { r := T.s, s := T.r, m := T.n, n := T.m,
    rows := transposeRows T.s T.rows,
    row_sums := T.col_sums, col_sums := T.row_sums }

/-- The loop state of make: next is next_line, buffer is the Python list
result (cleared at each flush), written is the content already written to
the store file, rs and cs are row_sums and col_sums. -/
structure MkSt where
  next : ℕ
  buffer : List ℕ
  written : List ℕ
  rs : ℕ
  cs : ℕ
  deriving DecidableEq

/-- oldLineAt models the sequential old-row read of make (torus.py
lines 217-219): rows are read in order and the read position seeks back
to 0 once the loop index reaches r, so iteration idx reads old row idx
for idx < r and old row idx - r afterwards. -/
def oldLineAt (r : ℕ) (oldRows : List ℕ) (idx : ℕ) : ℕ :=
  if idx < r then oldRows.getD idx 0 else oldRows.getD (idx - r) 0

/-- makeStep models one iteration of the streaming loop of make
(torus.py lines 216-238) for a torus with old dimensions r, s, old
stored rows oldRows, repetition count copies and flush batch size batch:
read an old row, repeat its bit pattern copies times, xor it into
next_line, append the result, update both parity summaries, and flush
the buffer to the file when its length reaches a multiple of batch. -/
def makeStep (r s copies batch : ℕ) (oldRows : List ℕ) (st : MkSt)
    (idx : ℕ) : MkSt :=
  let nl := st.next ^^^ repeatPattern s copies (oldLineAt r oldRows idx)
  let buf := st.buffer ++ [nl]
  if buf.length % batch = 0 then
    { next := nl, buffer := [], written := st.written ++ buf,
      rs := 2 * st.rs + popcount nl % 2, cs := st.cs ^^^ nl }
  else
    { next := nl, buffer := buf, written := st.written,
      rs := 2 * st.rs + popcount nl % 2, cs := st.cs ^^^ nl }

/-- makeLoop: the streaming pass of make (torus.py lines 200-238) after
the first line l0bits has been determined: fold makeStep over the
num_rows - 1 loop iterations, starting from result = [l0] and row_sums
and col_sums seeded from l0 (lines 200-205).  The flush batch size is
min(num_rows, 2^10) (line 233). -/
def makeLoop (T : TorusState) (l0bits : List ℕ) (numRows copies : ℕ) : MkSt :=
  (List.range (numRows - 1)).foldl
    (makeStep T.r T.s copies (min numRows 1024) T.rows)
    { next := numOfBits l0bits, buffer := [numOfBits l0bits], written := [],
      rs := popcount (numOfBits l0bits) % 2, cs := numOfBits l0bits }

/-- makeCore: run the streaming pass, then update the dimensions
(torus.py lines 241-243).  The new store content is exactly the written
part of the loop state; rows left in the buffer at loop exit were never
written to the file. -/
def makeCore (T : TorusState) (l0bits : List ℕ) (numRows copies : ℕ) :
    TorusState :=
  { r := numRows, s := T.s * copies, m := T.m + 1, n := T.n,
    rows := (makeLoop T l0bits numRows copies).written,
    row_sums := (makeLoop T l0bits numRows copies).rs,
    col_sums := (makeLoop T l0bits numRows copies).cs }

/-- Torus.make models Torus.make (torus.py lines 139-243).  The mode is
selected from col_sums (lines 172-181); the first new line is built from
the seed (lines 183-198); then the streaming pass runs.  In the odd case
with n = 0, Python computes num_copies = 2 ** (-1) = 0.5 and the loop
crashes with a TypeError before any row is produced; the model surfaces
this as the typeError result. -/
def Torus.make (T : TorusState) (seedOpt : Option (List ℕ)) :
    Except TorusError TorusState :=
  if T.col_sums = 0 then
    let seed := seedOpt.getD (debruijn T.n)
    let l0bits := List.replicate T.s 0 ++ pyRepeat (seed.drop 1) T.s
    .ok (makeCore T l0bits T.r (2 ^ T.n))
  else if T.col_sums = 2 ^ T.s - 1 then
    if T.n = 0 then .error .typeError
    else
      let l0bits := List.replicate T.s 0 ++
        (if T.n = 2 then pyRepeat [0, 1] (T.s / 2)
         else if 3 ≤ T.n then
           pyRepeat (accXor ((seedOpt.getD (debruijn (T.n - 1))).dropLast)) T.s
         else [])
      .ok (makeCore T l0bits (2 * T.r) (2 ^ (T.n - 1)))
  else .error .invalidColumnParity

/-- numRowsOf: the row count of the torus a construction step would
produce (torus.py lines 207-212). -/
def numRowsOf (T : TorusState) : ℕ :=
  if T.col_sums = 0 then T.r else 2 * T.r

/-- copiesOf: the repetition count a construction step would use
(torus.py lines 207-212), with natural subtraction standing in for the
odd case exponent (meaningful only for n at least 1; the n = 0 odd case
errors out before this quantity is ever used). -/
def copiesOf (T : TorusState) : ℕ :=
  if T.col_sums = 0 then 2 ^ T.n else 2 ^ (T.n - 1)

/-- firstLineBits: the first new line of a construction step as a digit
list (torus.py lines 183-198), before conversion to a number. -/
def firstLineBits (T : TorusState) (seedOpt : Option (List ℕ)) : List ℕ :=
  if T.col_sums = 0 then
    List.replicate T.s 0 ++ pyRepeat ((seedOpt.getD (debruijn T.n)).drop 1) T.s
  else
    List.replicate T.s 0 ++
      (if T.n = 2 then pyRepeat [0, 1] (T.s / 2)
       else if 3 ≤ T.n then
         pyRepeat (accXor ((seedOpt.getD (debruijn (T.n - 1))).dropLast)) T.s
       else [])

/-- goodSeed: the seed obeys the length discipline documented for make
(an order-n, respectively order-(n-1), de Bruijn sequence), stated
through its consequence: the first new line consists of bits and has
exactly the width of the constructed torus.  This is the condition under
which the Python write calls never overflow their byte length. -/
def goodSeed (T : TorusState) (seedOpt : Option (List ℕ)) : Prop :=
  (firstLineBits T seedOpt).length = T.s * copiesOf T ∧
    ∀ b ∈ firstLineBits T seedOpt, b < 2

instance (T : TorusState) (seedOpt : Option (List ℕ)) :
    Decidable (goodSeed T seedOpt) := by
  unfold goodSeed; infer_instance

/-- wf: the well-formedness of a torus state: the store holds exactly r
rows, every row value fits in s bits, and the dimension invariant
r * s = 2^(m*n) holds. -/
def wf (T : TorusState) : Prop :=
  T.rows.length = T.r ∧ (∀ v ∈ T.rows, v < 2 ^ T.s) ∧
    T.r * T.s = 2 ^ (T.m * T.n)

instance (T : TorusState) : Decidable (wf T) := by
  unfold wf; infer_instance

/-! ### Lemmas about the bit codec -/

theorem numOfBits_foldl (l : List ℕ) (a : ℕ) :
    l.foldl (fun a b => 2 * a + b) a = a * 2 ^ l.length + numOfBits l := by
  induction l generalizing a with
  | nil => simp [numOfBits]
  | cons b t ih =>
    simp only [List.foldl_cons, numOfBits, List.length_cons]
    rw [ih (2 * a + b), ih (2 * 0 + b)]
    ring

theorem numOfBits_cons (b : ℕ) (l : List ℕ) :
    numOfBits (b :: l) = b * 2 ^ l.length + numOfBits l := by
  show l.foldl (fun a b => 2 * a + b) (2 * 0 + b) = _
  rw [numOfBits_foldl]; ring

theorem numOfBits_concat (l : List ℕ) (b : ℕ) :
    numOfBits (l ++ [b]) = 2 * numOfBits l + b := by
  unfold numOfBits
  rw [List.foldl_append]
  rfl

theorem length_bitsOfNum (s v : ℕ) : (bitsOfNum s v).length = s := by
  induction s generalizing v with
  | zero => rfl
  | succ s ih => simp [bitsOfNum, ih]

theorem bitsOfNum_mem_lt (s v : ℕ) : ∀ b ∈ bitsOfNum s v, b < 2 := by
  induction s generalizing v with
  | zero => simp [bitsOfNum]
  | succ s ih =>
    intro b hb
    simp only [bitsOfNum, List.mem_cons] at hb
    rcases hb with h | h
    · subst h; exact Nat.mod_lt _ (by norm_num)
    · exact ih v b h

theorem numOfBits_lt (l : List ℕ) (h : ∀ b ∈ l, b < 2) :
    numOfBits l < 2 ^ l.length := by
  induction l with
  | nil => simp [numOfBits]
  | cons b t ih =>
    rw [numOfBits_cons]
    have hb : b < 2 := h b (List.mem_cons_self b t)
    have ht := ih (fun x hx => h x (List.mem_cons_of_mem b hx))
    have : b * 2 ^ t.length ≤ 2 ^ t.length := by
      calc b * 2 ^ t.length ≤ 1 * 2 ^ t.length := by
            exact Nat.mul_le_mul_right _ (by omega)
        _ = 2 ^ t.length := one_mul _
    simp only [List.length_cons, pow_succ]
    omega

theorem numOfBits_bitsOfNum (s v : ℕ) :
    numOfBits (bitsOfNum s v) = v % 2 ^ s := by
  induction s generalizing v with
  | zero => simp [bitsOfNum, numOfBits, Nat.mod_one]
  | succ s ih =>
    rw [bitsOfNum, numOfBits_cons, length_bitsOfNum, ih]
    have h1 : v % 2 ^ (s + 1) = v % (2 ^ s * 2) := by rw [pow_succ]
    rw [h1]
    conv_rhs => rw [← Nat.div_add_mod (v % (2 ^ s * 2)) (2 ^ s)]
    rw [Nat.mod_mul_right_div_self, Nat.mod_mod_of_dvd v (Dvd.intro 2 rfl)]
    ring

theorem bitsOfNum_mod (s v : ℕ) : bitsOfNum s (v % 2 ^ s) = bitsOfNum s v := by
  induction s generalizing v with
  | zero => rfl
  | succ s ih =>
    have hdvd : (2 : ℕ) ^ s ∣ 2 ^ (s + 1) := pow_dvd_pow 2 (Nat.le_succ s)
    simp only [bitsOfNum]
    congr 1
    · rw [pow_succ, Nat.mod_mul_right_div_self, Nat.mod_mod_of_dvd _ (dvd_refl 2)]
    · rw [← ih (v % 2 ^ (s + 1)), Nat.mod_mod_of_dvd v hdvd, ih]

theorem bitsOfNum_numOfBits (l : List ℕ) (h : ∀ b ∈ l, b < 2) :
    bitsOfNum l.length (numOfBits l) = l := by
  induction l with
  | nil => rfl
  | cons b t ih =>
    have hb : b < 2 := h b (List.mem_cons_self b t)
    have ht : ∀ x ∈ t, x < 2 := fun x hx => h x (List.mem_cons_of_mem b hx)
    have hlt := numOfBits_lt t ht
    simp only [List.length_cons, bitsOfNum, numOfBits_cons]
    congr 1
    · rw [Nat.add_comm, mul_comm, Nat.add_mul_div_left _ _ (Nat.pos_pow_of_pos _ (by norm_num)),
        Nat.div_eq_of_lt hlt]
      omega
    · rw [← bitsOfNum_mod, Nat.add_comm, mul_comm, Nat.add_mul_mod_self_left,
        Nat.mod_eq_of_lt hlt, ih ht]

theorem bitsOfNum_zero (s : ℕ) : bitsOfNum s 0 = List.replicate s 0 := by
  induction s with
  | zero => rfl
  | succ s ih => simp [bitsOfNum, ih, List.replicate_succ]

theorem bitsOfNum_wide (k s v : ℕ) (h : v < 2 ^ s) :
    bitsOfNum (k + s) v = List.replicate k 0 ++ bitsOfNum s v := by
  induction k with
  | zero => simp
  | succ k ih =>
    have hlt : v < 2 ^ (k + s) :=
      lt_of_lt_of_le h (Nat.pow_le_pow_right (by norm_num) (by omega))
    have hstep : k + 1 + s = (k + s) + 1 := by omega
    rw [hstep]
    show v / 2 ^ (k + s) % 2 :: bitsOfNum (k + s) v = _
    rw [Nat.div_eq_of_lt hlt, ih]
    rfl

/-! ### Lemmas about popcount -/

theorem popcountAux_congr (f1 : ℕ) : ∀ f2 n, n ≤ f1 → n ≤ f2 →
    popcountAux f1 n = popcountAux f2 n := by
  induction f1 with
  | zero =>
    intro f2 n h1 _
    have hn : n = 0 := by omega
    subst hn
    cases f2 <;> simp [popcountAux]
  | succ f1 ih =>
    intro f2 n h1 h2
    rcases Nat.eq_zero_or_pos n with hn | hn
    · subst hn
      cases f2 <;> simp [popcountAux]
    · obtain ⟨f2p, rfl⟩ : ∃ k, f2 = k + 1 := ⟨f2 - 1, by omega⟩
      simp only [popcountAux, if_neg (by omega : ¬n = 0)]
      congr 1
      exact ih f2p (n / 2) (by omega) (by omega)

theorem popcount_eq (n : ℕ) :
    popcount n = if n = 0 then 0 else n % 2 + popcount (n / 2) := by
  unfold popcount
  match n with
  | 0 => rfl
  | n + 1 =>
    simp only [popcountAux, if_neg (Nat.succ_ne_zero n)]
    congr 1
    exact popcountAux_congr n ((n + 1) / 2) ((n + 1) / 2) (by omega) (by omega)

theorem popcount_zero : popcount 0 = 0 := rfl

theorem popcount_double_add (k b : ℕ) (hb : b < 2) :
    popcount (2 * k + b) = b + popcount k := by
  rcases Nat.eq_zero_or_pos (2 * k + b) with h | h
  · have hk : k = 0 := by omega
    have hb0 : b = 0 := by omega
    subst hk; subst hb0; rfl
  · rw [popcount_eq (2 * k + b), if_neg (by omega)]
    have h1 : (2 * k + b) % 2 = b := by omega
    have h2 : (2 * k + b) / 2 = k := by omega
    rw [h1, h2]

theorem popcount_numOfBits (l : List ℕ) (h : ∀ b ∈ l, b < 2) :
    popcount (numOfBits l) = l.sum := by
  induction l using List.reverseRecOn with
  | nil => rfl
  | append_singleton t b ih =>
    have hb : b < 2 := h b (by simp)
    have ht : ∀ x ∈ t, x < 2 := fun x hx => h x (by simp [hx])
    rw [numOfBits_concat, popcount_double_add _ _ hb, ih ht, List.sum_append]
    simp [Nat.add_comm]

/-! ### Lemmas about exclusive-or at the bit level -/

theorem xor_lt_two_pow {a b s : ℕ} (ha : a < 2 ^ s) (hb : b < 2 ^ s) :
    a ^^^ b < 2 ^ s :=
  Nat.bitwise_lt_two_pow ha hb

theorem xor_div_pow (a b k : ℕ) : (a ^^^ b) / 2 ^ k = a / 2 ^ k ^^^ b / 2 ^ k := by
  apply Nat.eq_of_testBit_eq
  intro i
  rw [← Nat.shiftRight_eq_div_pow, ← Nat.shiftRight_eq_div_pow,
    ← Nat.shiftRight_eq_div_pow, Nat.testBit_shiftRight, Nat.testBit_xor,
    Nat.testBit_xor, Nat.testBit_shiftRight, Nat.testBit_shiftRight]

theorem xor_mod_pow (a b k : ℕ) : (a ^^^ b) % 2 ^ k = a % 2 ^ k ^^^ b % 2 ^ k := by
  apply Nat.eq_of_testBit_eq
  intro i
  rw [Nat.testBit_mod_two_pow, Nat.testBit_xor, Nat.testBit_xor,
    Nat.testBit_mod_two_pow, Nat.testBit_mod_two_pow]
  cases Nat.decLt i k with
  | isTrue h => simp [h]
  | isFalse h => simp [h]

theorem bitsOfNum_xor (s : ℕ) : ∀ a b, a < 2 ^ s → b < 2 ^ s →
    bitsOfNum s (a ^^^ b) =
      List.zipWith (fun x y => (x + y) % 2) (bitsOfNum s a) (bitsOfNum s b) := by
  induction s with
  | zero => intro a b _ _; rfl
  | succ s ih =>
    intro a b ha hb
    simp only [bitsOfNum, List.zipWith_cons_cons]
    congr 1
    · rw [xor_div_pow, Nat.xor_mod_two_eq, Nat.add_mod]
    · have hmoda : a % 2 ^ s < 2 ^ s := Nat.mod_lt _ (Nat.pos_pow_of_pos _ (by norm_num))
      have hmodb : b % 2 ^ s < 2 ^ s := Nat.mod_lt _ (Nat.pos_pow_of_pos _ (by norm_num))
      rw [← bitsOfNum_mod s (a ^^^ b), xor_mod_pow, ih _ _ hmoda hmodb,
        bitsOfNum_mod, bitsOfNum_mod]

theorem sum_zipWith_addmod2 (l1 : List ℕ) : ∀ l2 : List ℕ, l1.length = l2.length →
    (List.zipWith (fun x y => (x + y) % 2) l1 l2).sum % 2 = (l1.sum + l2.sum) % 2 := by
  induction l1 with
  | nil =>
    intro l2 h
    have : l2 = [] := List.length_eq_zero.mp h.symm
    subst this; rfl
  | cons x t1 ih =>
    intro l2 h
    match l2 with
    | y :: t2 =>
      simp only [List.length_cons, Nat.succ_inj] at h
      have hr := ih t2 h
      simp only [List.zipWith_cons_cons, List.sum_cons]
      omega

theorem popcount_eq_sum_bits (s v : ℕ) (h : v < 2 ^ s) :
    popcount v = (bitsOfNum s v).sum := by
  have := popcount_numOfBits (bitsOfNum s v) (bitsOfNum_mem_lt s v)
  rwa [numOfBits_bitsOfNum, Nat.mod_eq_of_lt h] at this

theorem popcount_xor_parity (a b : ℕ) :
    popcount (a ^^^ b) % 2 = (popcount a + popcount b) % 2 := by
  set s := a + b with hs
  have ha : a < 2 ^ s := lt_of_lt_of_le (Nat.lt_two_pow a)
    (Nat.pow_le_pow_right (by norm_num) (by omega))
  have hb : b < 2 ^ s := lt_of_lt_of_le (Nat.lt_two_pow b)
    (Nat.pow_le_pow_right (by norm_num) (by omega))
  have hx : a ^^^ b < 2 ^ s := xor_lt_two_pow ha hb
  rw [popcount_eq_sum_bits s _ hx, popcount_eq_sum_bits s a ha,
    popcount_eq_sum_bits s b hb, bitsOfNum_xor s a b ha hb,
    sum_zipWith_addmod2 _ _ (by rw [length_bitsOfNum, length_bitsOfNum])]

/-! ### Lemmas about zipStar (the transpose kernel) -/

theorem minLen_eq (ls : List (List ℕ)) (s : ℕ) (hne : ls ≠ [])
    (h : ∀ l ∈ ls, l.length = s) : minLen ls = s := by
  match ls with
  | l :: rest =>
    have hfold : ∀ (r : List (List ℕ)), (∀ x ∈ r, x.length = s) →
        r.foldl (fun a x => min a x.length) s = s := by
      intro r
      induction r with
      | nil => intro _; rfl
      | cons x t ih =>
        intro hr
        simp only [List.foldl_cons, hr x (List.mem_cons_self x t), min_self]
        exact ih (fun y hy => hr y (List.mem_cons_of_mem x hy))
    have hl : l.length = s := h l (List.mem_cons_self l rest)
    show rest.foldl (fun a x => min a x.length) l.length = s
    rw [hl]
    exact hfold rest (fun y hy => h y (List.mem_cons_of_mem l hy))

theorem zipStar_length (ls : List (List ℕ)) : (zipStar ls).length = minLen ls := by
  simp [zipStar]

theorem zipStar_getElem (ls : List (List ℕ)) (j : ℕ) (h : j < (zipStar ls).length) :
    (zipStar ls)[j] = ls.map (fun l => l.getD j 0) := by
  simp [zipStar]

theorem getD_lt_two (l : List ℕ) (j : ℕ) (h : ∀ b ∈ l, b < 2) : l.getD j 0 < 2 := by
  rcases Nat.lt_or_ge j l.length with hj | hj
  · rw [List.getD_eq_getElem l 0 hj]
    exact h _ (List.getElem_mem hj)
  · rw [List.getD_eq_default l 0 hj]
    norm_num

theorem zipStar_zipStar (ls : List (List ℕ)) (s : ℕ) (hne : ls ≠ [])
    (hs : 1 ≤ s) (hlen : ∀ l ∈ ls, l.length = s) :
    zipStar (zipStar ls) = ls := by
  have hmin : minLen ls = s := minLen_eq ls s hne hlen
  have hzlen : (zipStar ls).length = s := by rw [zipStar_length, hmin]
  have hzne : zipStar ls ≠ [] := by
    intro hcontra
    rw [hcontra] at hzlen
    simp at hzlen
    omega
  have hrows : ∀ l ∈ zipStar ls, l.length = ls.length := by
    intro l hl
    simp only [zipStar, List.mem_map, List.mem_range] at hl
    obtain ⟨j, _, rfl⟩ := hl
    simp
  have hmin2 : minLen (zipStar ls) = ls.length :=
    minLen_eq _ _ hzne hrows
  apply List.ext_getElem
  · rw [zipStar_length, hmin2]
  · intro i h1 h2
    rw [zipStar_getElem _ i h1]
    have hilen : i < ls.length := h2
    apply List.ext_getElem
    · simp only [List.length_map, hzlen]
      exact (hlen _ (List.getElem_mem h2)).symm
    · intro j hj1 hj2
      have hjs : j < s := by
        simp only [List.length_map, hzlen] at hj1
        exact hj1
      have hjz : j < (zipStar ls).length := by rw [hzlen]; exact hjs
      rw [List.getElem_map]
      have h3 : ((zipStar ls)[j]).getD i 0 = (ls[i]).getD j 0 := by
        rw [zipStar_getElem _ j hjz]
        have hi2 : i < (ls.map (fun l => l.getD j 0)).length := by
          simp [hilen]
        rw [List.getD_eq_getElem _ 0 hi2, List.getElem_map]
      rw [h3, List.getD_eq_getElem _ 0 hj2]

theorem mem_zipStar (ls : List (List ℕ)) (l : List ℕ) (hl : l ∈ zipStar ls) :
    ∃ j, j < minLen ls ∧ l = ls.map (fun x => x.getD j 0) := by
  simp only [zipStar, List.mem_map, List.mem_range] at hl
  obtain ⟨j, hj, rfl⟩ := hl
  exact ⟨j, hj, rfl⟩

theorem mem_zipStar_bits (s : ℕ) (rows : List ℕ) (l : List ℕ)
    (hl : l ∈ zipStar (rows.map (bitsOfNum s))) :
    l.length = rows.length ∧ ∀ b ∈ l, b < 2 := by
  obtain ⟨j, hj, rfl⟩ := mem_zipStar _ _ hl
  constructor
  · simp
  · intro b hb
    obtain ⟨x, hx, rfl⟩ := List.mem_map.mp hb
    obtain ⟨v, hv, rfl⟩ := List.mem_map.mp hx
    exact getD_lt_two _ _ (bitsOfNum_mem_lt s v)

theorem transposeRows_length (s : ℕ) (rows : List ℕ) (hne : rows ≠ []) :
    (transposeRows s rows).length = s := by
  unfold transposeRows
  rw [List.length_map, zipStar_length]
  apply minLen_eq
  · simpa using hne
  · intro l hl
    obtain ⟨v, hv, rfl⟩ := List.mem_map.mp hl
    exact length_bitsOfNum s v

theorem transposeRows_mem_lt (s : ℕ) (rows : List ℕ) :
    ∀ v ∈ transposeRows s rows, v < 2 ^ rows.length := by
  intro v hv
  unfold transposeRows at hv
  obtain ⟨l, hl, rfl⟩ := List.mem_map.mp hv
  obtain ⟨hlen, hbits⟩ := mem_zipStar_bits s rows l hl
  have := numOfBits_lt l hbits
  rwa [hlen] at this

theorem transposeRows_involution (s : ℕ) (rows : List ℕ) (hne : rows ≠ [])
    (hs : 1 ≤ s) (hb : ∀ v ∈ rows, v < 2 ^ s) :
    transposeRows rows.length (transposeRows s rows) = rows := by
  have hbmne : rows.map (bitsOfNum s) ≠ [] := by simpa using hne
  have hbmlen : ∀ l ∈ rows.map (bitsOfNum s), l.length = s := by
    intro l hl
    obtain ⟨v, _, rfl⟩ := List.mem_map.mp hl
    exact length_bitsOfNum s v
  have key : (transposeRows s rows).map (bitsOfNum rows.length) =
      zipStar (rows.map (bitsOfNum s)) := by
    unfold transposeRows
    rw [List.map_map]
    conv_rhs => rw [← List.map_id (zipStar (rows.map (bitsOfNum s)))]
    apply List.map_congr_left
    intro l hl
    obtain ⟨hlen, hbits⟩ := mem_zipStar_bits s rows l hl
    show bitsOfNum rows.length (numOfBits l) = l
    rw [← hlen]
    exact bitsOfNum_numOfBits l hbits
  calc transposeRows rows.length (transposeRows s rows)
      = (zipStar ((transposeRows s rows).map (bitsOfNum rows.length))).map numOfBits := rfl
    _ = (zipStar (zipStar (rows.map (bitsOfNum s)))).map numOfBits := by rw [key]
    _ = (rows.map (bitsOfNum s)).map numOfBits := by
        rw [zipStar_zipStar _ s hbmne hs hbmlen]
    _ = rows := by
        rw [List.map_map]
        conv_rhs => rw [← List.map_id rows]
        apply List.map_congr_left
        intro v hv
        show numOfBits (bitsOfNum s v) = v
        rw [numOfBits_bitsOfNum, Nat.mod_eq_of_lt (hb v hv)]

/-! ### Parity summaries and the transpose -/

theorem rowParityOf_eq_numOfBits (rows : List ℕ) :
    rowParityOf rows = numOfBits (rows.map (fun v => popcount v % 2)) := by
  unfold rowParityOf numOfBits
  rw [List.foldl_map]

theorem foldl_xor_lt (s : ℕ) (rows : List ℕ) : ∀ acc, acc < 2 ^ s →
    (∀ v ∈ rows, v < 2 ^ s) → rows.foldl (fun a v => a ^^^ v) acc < 2 ^ s := by
  induction rows with
  | nil => intro acc hacc _; exact hacc
  | cons v t ih =>
    intro acc hacc hb
    exact ih (acc ^^^ v) (xor_lt_two_pow hacc (hb v (List.mem_cons_self v t)))
      (fun x hx => hb x (List.mem_cons_of_mem v hx))

theorem colParityOf_lt (s : ℕ) (rows : List ℕ) (hb : ∀ v ∈ rows, v < 2 ^ s) :
    colParityOf rows < 2 ^ s :=
  foldl_xor_lt s rows 0 (Nat.pos_pow_of_pos _ (by norm_num)) hb

theorem bitsOfNum_foldl_xor (s : ℕ) (rows : List ℕ) : ∀ acc, acc < 2 ^ s →
    (∀ v ∈ rows, v < 2 ^ s) →
    bitsOfNum s (rows.foldl (fun a v => a ^^^ v) acc) =
      rows.foldl
        (fun bl v => List.zipWith (fun x y => (x + y) % 2) bl (bitsOfNum s v))
        (bitsOfNum s acc) := by
  induction rows with
  | nil => intro acc _ _; rfl
  | cons v t ih =>
    intro acc hacc hb
    have hv : v < 2 ^ s := hb v (List.mem_cons_self v t)
    simp only [List.foldl_cons]
    rw [ih (acc ^^^ v) (xor_lt_two_pow hacc hv)
      (fun x hx => hb x (List.mem_cons_of_mem v hx)),
      bitsOfNum_xor s acc v hacc hv]

theorem foldZip_spec (s : ℕ) (rows : List ℕ) : ∀ bl : List ℕ, bl.length = s →
    (∀ b ∈ bl, b < 2) →
    (rows.foldl
      (fun acc v => List.zipWith (fun x y => (x + y) % 2) acc (bitsOfNum s v))
      bl).length = s ∧
    ∀ j, j < s →
      (rows.foldl
        (fun acc v => List.zipWith (fun x y => (x + y) % 2) acc (bitsOfNum s v))
        bl).getD j 0 =
      (bl.getD j 0 + (rows.map (fun v => (bitsOfNum s v).getD j 0)).sum) % 2 := by
  induction rows with
  | nil =>
    intro bl hlen hbits
    refine ⟨hlen, fun j hj => ?_⟩
    simp only [List.foldl_nil, List.map_nil, List.sum_nil, Nat.add_zero]
    exact (Nat.mod_eq_of_lt (getD_lt_two bl j hbits)).symm
  | cons v t ih =>
    intro bl hlen hbits
    have hzlen : (List.zipWith (fun x y => (x + y) % 2) bl (bitsOfNum s v)).length = s := by
      rw [List.length_zipWith, hlen, length_bitsOfNum]
      exact min_self s
    have hzbits : ∀ b ∈ List.zipWith (fun x y => (x + y) % 2) bl (bitsOfNum s v), b < 2 := by
      intro b hbmem
      obtain ⟨i, hi, rfl⟩ := List.mem_iff_getElem.mp hbmem
      rw [List.getElem_zipWith]
      exact Nat.mod_lt _ (by norm_num)
    obtain ⟨hlen2, hspec⟩ := ih _ hzlen hzbits
    refine ⟨hlen2, fun j hj => ?_⟩
    simp only [List.foldl_cons]
    rw [hspec j hj]
    have hjz : j < (List.zipWith (fun x y => (x + y) % 2) bl (bitsOfNum s v)).length := by
      rw [hzlen]; exact hj
    rw [List.getD_eq_getElem _ 0 hjz, List.getElem_zipWith]
    simp only [List.map_cons, List.sum_cons]
    rw [← List.getD_eq_getElem bl 0, ← List.getD_eq_getElem (bitsOfNum s v) 0]
    omega

theorem rowParity_transposeRows (s : ℕ) (rows : List ℕ) (hne : rows ≠ [])
    (hb : ∀ v ∈ rows, v < 2 ^ s) :
    rowParityOf (transposeRows s rows) = colParityOf rows := by
  have hbmlen : ∀ l ∈ rows.map (bitsOfNum s), l.length = s := by
    intro l hl
    obtain ⟨v, _, rfl⟩ := List.mem_map.mp hl
    exact length_bitsOfNum s v
  have hbmne : rows.map (bitsOfNum s) ≠ [] := by simpa using hne
  have hmin : minLen (rows.map (bitsOfNum s)) = s := minLen_eq _ s hbmne hbmlen
  have hL : rowParityOf (transposeRows s rows) =
      numOfBits ((zipStar (rows.map (bitsOfNum s))).map (fun l => l.sum % 2)) := by
    rw [rowParityOf_eq_numOfBits]
    unfold transposeRows
    rw [List.map_map]
    congr 1
    apply List.map_congr_left
    intro l hl
    obtain ⟨hlen, hbits⟩ := mem_zipStar_bits s rows l hl
    show popcount (numOfBits l) % 2 = l.sum % 2
    rw [popcount_numOfBits l hbits]
  have hX : colParityOf rows < 2 ^ s := colParityOf_lt s rows hb
  have hR : colParityOf rows = numOfBits (bitsOfNum s (colParityOf rows)) := by
    rw [numOfBits_bitsOfNum, Nat.mod_eq_of_lt hX]
  rw [hL, hR]
  congr 1
  have hA := bitsOfNum_foldl_xor s rows 0 (Nat.pos_pow_of_pos _ (by norm_num)) hb
  rw [bitsOfNum_zero] at hA
  have hrep : (List.replicate s 0).length = s := List.length_replicate s 0
  have hrepb : ∀ b ∈ List.replicate s (0 : ℕ), b < 2 := by
    intro b hbmem
    rw [List.eq_of_mem_replicate hbmem]
    norm_num
  obtain ⟨hflen, hfspec⟩ := foldZip_spec s rows (List.replicate s 0) hrep hrepb
  symm
  unfold colParityOf
  rw [hA]
  apply List.ext_getElem
  · rw [hflen]
    simp [zipStar_length, hmin]
  · intro j h1 h2
    have hjs : j < s := by rw [hflen] at h1; exact h1
    rw [← List.getD_eq_getElem _ 0 h1, hfspec j hjs]
    have hgd : (List.replicate s (0 : ℕ)).getD j 0 = 0 := by
      rw [List.getD_eq_getElem _ 0 (by rw [hrep]; exact hjs)]
      exact List.getElem_replicate 0 _
    rw [hgd]
    have hjz : j < (zipStar (rows.map (bitsOfNum s))).length := by
      rw [zipStar_length, hmin]; exact hjs
    rw [List.getElem_map, zipStar_getElem _ j hjz, List.map_map]
    simp only [Nat.zero_add]
    rfl

theorem colParity_transposeRows (s : ℕ) (rows : List ℕ) (hne : rows ≠ [])
    (hs : 1 ≤ s) (hb : ∀ v ∈ rows, v < 2 ^ s) :
    colParityOf (transposeRows s rows) = rowParityOf rows := by
  have htne : transposeRows s rows ≠ [] := by
    intro hcontra
    have := transposeRows_length s rows hne
    rw [hcontra] at this
    simp at this
    omega
  have := rowParity_transposeRows rows.length (transposeRows s rows) htne
    (transposeRows_mem_lt s rows)
  rw [transposeRows_involution s rows hne hs hb] at this
  exact this.symm

/-! ### The construction loop of make -/

/-- genRows: the sequence of new rows produced by the streaming loop of
make, one per iteration index, starting from the running value next. -/
def genRows (r s copies : ℕ) (oldRows : List ℕ) : ℕ → List ℕ → List ℕ
  | _, [] => []
  | next, idx :: rest =>
    let nl := next ^^^ repeatPattern s copies (oldLineAt r oldRows idx)
    nl :: genRows r s copies oldRows nl rest

theorem genRows_length (r s copies : ℕ) (oldRows : List ℕ) :
    ∀ (xs : List ℕ) (next : ℕ),
      (genRows r s copies oldRows next xs).length = xs.length := by
  intro xs
  induction xs with
  | nil => intro next; rfl
  | cons idx rest ih => intro next; simp [genRows, ih]

theorem makeFold_spec (r s copies batch : ℕ) (oldRows : List ℕ)
    (hbatch : 1 ≤ batch) :
    ∀ (xs : List ℕ) (st : MkSt),
    st.written.length % batch = 0 → st.buffer.length < batch →
    (xs.foldl (makeStep r s copies batch oldRows) st).written ++
        (xs.foldl (makeStep r s copies batch oldRows) st).buffer =
      st.written ++ st.buffer ++ genRows r s copies oldRows st.next xs ∧
    (xs.foldl (makeStep r s copies batch oldRows) st).written.length % batch = 0 ∧
    (xs.foldl (makeStep r s copies batch oldRows) st).buffer.length < batch ∧
    (xs.foldl (makeStep r s copies batch oldRows) st).rs =
      (genRows r s copies oldRows st.next xs).foldl
        (fun a v => 2 * a + popcount v % 2) st.rs ∧
    (xs.foldl (makeStep r s copies batch oldRows) st).cs =
      (genRows r s copies oldRows st.next xs).foldl
        (fun a v => a ^^^ v) st.cs := by
  intro xs
  induction xs with
  | nil =>
    intro st hw hb
    refine ⟨by simp [genRows], hw, hb, rfl, rfl⟩
  | cons idx rest ih =>
    intro st hw hb
    simp only [List.foldl_cons, genRows]
    set nl := st.next ^^^ repeatPattern s copies (oldLineAt r oldRows idx) with hnl
    have hstep : makeStep r s copies batch oldRows st idx =
        if (st.buffer ++ [nl]).length % batch = 0 then
          { next := nl, buffer := [], written := st.written ++ (st.buffer ++ [nl]),
            rs := 2 * st.rs + popcount nl % 2, cs := st.cs ^^^ nl }
        else
          { next := nl, buffer := st.buffer ++ [nl], written := st.written,
            rs := 2 * st.rs + popcount nl % 2, cs := st.cs ^^^ nl } := rfl
    by_cases hfl : (st.buffer ++ [nl]).length % batch = 0
    · rw [hstep, if_pos hfl]
      have hw2 : (st.written ++ (st.buffer ++ [nl])).length % batch = 0 := by
        rw [List.length_append, Nat.add_mod, hw, hfl]
        simp
      have hb2 : ([] : List ℕ).length < batch := by
        simpa using hbatch
      obtain ⟨h1, h2, h3, h4, h5⟩ :=
        ih { next := nl, buffer := [], written := st.written ++ (st.buffer ++ [nl]),
             rs := 2 * st.rs + popcount nl % 2, cs := st.cs ^^^ nl } hw2 hb2
      refine ⟨?_, h2, h3, h4, h5⟩
      rw [h1]
      simp [List.append_assoc]
    · rw [hstep, if_neg hfl]
      have hb2 : (st.buffer ++ [nl]).length < batch := by
        rw [List.length_append] at hfl ⊢
        simp only [List.length_singleton] at hfl ⊢
        rcases Nat.lt_or_ge (st.buffer.length + 1) batch with h | h
        · exact h
        · exfalso
          have heq : st.buffer.length + 1 = batch := by omega
          rw [heq] at hfl
          exact hfl (Nat.mod_self batch)
      obtain ⟨h1, h2, h3, h4, h5⟩ :=
        ih { next := nl, buffer := st.buffer ++ [nl], written := st.written,
             rs := 2 * st.rs + popcount nl % 2, cs := st.cs ^^^ nl } hw hb2
      refine ⟨?_, h2, h3, h4, h5⟩
      rw [h1]
      simp [List.append_assoc]

theorem makeLoop_small (T : TorusState) (l0bits : List ℕ) (numRows copies : ℕ)
    (h : numRows < 2) :
    makeLoop T l0bits numRows copies =
      { next := numOfBits l0bits, buffer := [numOfBits l0bits], written := [],
        rs := popcount (numOfBits l0bits) % 2, cs := numOfBits l0bits } := by
  unfold makeLoop
  have hz : numRows - 1 = 0 := by omega
  rw [hz]
  rfl

theorem makeCore_sums (T : TorusState) (l0bits : List ℕ) (numRows copies : ℕ) :
    (makeCore T l0bits numRows copies).row_sums =
      rowParityOf (numOfBits l0bits ::
        genRows T.r T.s copies T.rows (numOfBits l0bits) (List.range (numRows - 1))) ∧
    (makeCore T l0bits numRows copies).col_sums =
      colParityOf (numOfBits l0bits ::
        genRows T.r T.s copies T.rows (numOfBits l0bits) (List.range (numRows - 1))) := by
  have hstart : 2 * 0 + popcount (numOfBits l0bits) % 2 =
      popcount (numOfBits l0bits) % 2 := by omega
  rcases Nat.lt_or_ge numRows 2 with hsm | hlg
  · have hrange : numRows - 1 = 0 := by omega
    simp only [makeCore, makeLoop_small T l0bits numRows copies hsm, hrange,
      List.range_zero, genRows, rowParityOf, colParityOf, List.foldl_cons,
      List.foldl_nil]
    constructor
    · omega
    · rw [Nat.zero_xor]
  · have hb2 : 2 ≤ min numRows 1024 := le_min hlg (by norm_num)
    obtain ⟨h1, h2, h3, h4, h5⟩ := makeFold_spec T.r T.s copies (min numRows 1024)
      T.rows (by omega) (List.range (numRows - 1))
      { next := numOfBits l0bits, buffer := [numOfBits l0bits], written := [],
        rs := popcount (numOfBits l0bits) % 2, cs := numOfBits l0bits }
      (by simp) (by simpa using hb2)
    simp only [makeCore, makeLoop]
    constructor
    · rw [rowParityOf]
      simp only [List.foldl_cons]
      rw [hstart]
      exact h4
    · rw [colParityOf]
      simp only [List.foldl_cons]
      rw [Nat.zero_xor]
      exact h5

theorem makeCore_rows (T : TorusState) (l0bits : List ℕ) (numRows copies : ℕ)
    (h2 : 2 ≤ numRows) (hpow : ∃ a, numRows = 2 ^ a) :
    (makeCore T l0bits numRows copies).rows =
      numOfBits l0bits ::
        genRows T.r T.s copies T.rows (numOfBits l0bits) (List.range (numRows - 1)) := by
  have hb2 : 2 ≤ min numRows 1024 := le_min h2 (by norm_num)
  have hdvd : min numRows 1024 ∣ numRows := by
    obtain ⟨a, rfl⟩ := hpow
    rcases le_or_lt (2 ^ a) 1024 with hle | hgt
    · rw [min_eq_left hle]
    · have h10 : 10 ≤ a := by
        by_contra hcon
        push_neg at hcon
        have hle9 : (2 : ℕ) ^ a ≤ 2 ^ 9 := Nat.pow_le_pow_right (by norm_num) (by omega)
        norm_num at hle9
        omega
      rw [min_eq_right (le_of_lt hgt), show (1024 : ℕ) = 2 ^ 10 by norm_num]
      exact pow_dvd_pow 2 h10
  have hnr0 : numRows % min numRows 1024 = 0 := Nat.mod_eq_zero_of_dvd hdvd
  obtain ⟨h1, h2w, h3, -, -⟩ := makeFold_spec T.r T.s copies (min numRows 1024)
    T.rows (by omega) (List.range (numRows - 1))
    { next := numOfBits l0bits, buffer := [numOfBits l0bits], written := [],
      rs := popcount (numOfBits l0bits) % 2, cs := numOfBits l0bits }
    (by simp) (by simpa using hb2)
  simp only [makeCore, makeLoop]
  set F := (List.range (numRows - 1)).foldl
    (makeStep T.r T.s copies (min numRows 1024) T.rows)
    { next := numOfBits l0bits, buffer := [numOfBits l0bits], written := [],
      rs := popcount (numOfBits l0bits) % 2, cs := numOfBits l0bits } with hF
  have hlen : F.written.length + F.buffer.length = numRows := by
    have hc := congrArg List.length h1
    simp only [List.length_append, List.length_cons, List.length_nil,
      genRows_length, List.length_range] at hc
    omega
  have hbmod : F.buffer.length % min numRows 1024 = 0 := by
    have hcomb : (F.written.length + F.buffer.length) % min numRows 1024 =
        F.buffer.length % min numRows 1024 := by
      conv_lhs => rw [Nat.add_mod, h2w]
      simp [Nat.mod_mod_of_dvd]
    rw [hlen] at hcomb
    rw [← hcomb]
    exact hnr0
  have hbufnil : F.buffer = [] :=
    List.length_eq_zero.mp (by rw [← Nat.mod_eq_of_lt h3]; exact hbmod)
  rw [hbufnil, List.append_nil] at h1
  rw [h1]
  simp

/-! ### Bounds and parities of the generated rows -/

theorem getD_lt_of_forall (l : List ℕ) (i B : ℕ) (hB : 0 < B)
    (h : ∀ v ∈ l, v < B) : l.getD i 0 < B := by
  rcases Nat.lt_or_ge i l.length with hi | hi
  · rw [List.getD_eq_getElem l 0 hi]
    exact h _ (List.getElem_mem hi)
  · rw [List.getD_eq_default l 0 hi]
    exact hB

theorem oldLineAt_lt (r s : ℕ) (oldRows : List ℕ)
    (hold : ∀ v ∈ oldRows, v < 2 ^ s) (idx : ℕ) :
    oldLineAt r oldRows idx < 2 ^ s := by
  unfold oldLineAt
  have hp : 0 < 2 ^ s := Nat.pos_pow_of_pos _ (by norm_num)
  split_ifs
  · exact getD_lt_of_forall _ _ _ hp hold
  · exact getD_lt_of_forall _ _ _ hp hold

theorem repeatPattern_succ (s c v : ℕ) :
    repeatPattern s (c + 1) v = repeatPattern s c v + (v <<< (s * c)) := by
  unfold repeatPattern
  rw [List.range_succ, List.foldl_append]
  rfl

theorem repeatPattern_lt (s copies v : ℕ) (hv : v < 2 ^ s) :
    repeatPattern s copies v < 2 ^ (s * copies) := by
  induction copies with
  | zero =>
    unfold repeatPattern
    simp
  | succ c ih =>
    rw [repeatPattern_succ, Nat.shiftLeft_eq]
    have h1 : v * 2 ^ (s * c) ≤ (2 ^ s - 1) * 2 ^ (s * c) :=
      Nat.mul_le_mul_right _ (by omega)
    have hle : 2 ^ (s * c) ≤ 2 ^ s * 2 ^ (s * c) :=
      Nat.le_mul_of_pos_left _ (Nat.pos_pow_of_pos _ (by norm_num))
    have hsub : (2 ^ s - 1) * 2 ^ (s * c) = 2 ^ s * 2 ^ (s * c) - 2 ^ (s * c) := by
      rw [Nat.sub_mul, Nat.one_mul]
    have hpow : 2 ^ s * 2 ^ (s * c) = 2 ^ (s * (c + 1)) := by
      rw [← pow_add]
      congr 1
      ring
    rw [hsub] at h1
    omega

theorem genRows_mem_lt (r s copies : ℕ) (oldRows : List ℕ)
    (hold : ∀ v ∈ oldRows, v < 2 ^ s) :
    ∀ (xs : List ℕ) (next : ℕ), next < 2 ^ (s * copies) →
      ∀ v ∈ genRows r s copies oldRows next xs, v < 2 ^ (s * copies) := by
  intro xs
  induction xs with
  | nil =>
    intro next _ v hv
    simp [genRows] at hv
  | cons idx rest ih =>
    intro next hnext v hv
    simp only [genRows, List.mem_cons] at hv
    have hnl : next ^^^ repeatPattern s copies (oldLineAt r oldRows idx) <
        2 ^ (s * copies) :=
      xor_lt_two_pow hnext (repeatPattern_lt s copies _ (oldLineAt_lt r s oldRows hold idx))
    rcases hv with rfl | hv
    · exact hnl
    · exact ih _ hnl v hv

theorem popcount_mod_div (a : ℕ) : popcount a = a % 2 + popcount (a / 2) := by
  rcases Nat.eq_zero_or_pos a with rfl | ha
  · rfl
  · rw [popcount_eq a, if_neg (by omega)]

theorem popcount_mul_pow_add (b k : ℕ) : ∀ a, a < 2 ^ k →
    popcount (b * 2 ^ k + a) = popcount b + popcount a := by
  induction k with
  | zero =>
    intro a ha
    have : a = 0 := by omega
    subst this
    simp [popcount_zero]
  | succ k ih =>
    intro a ha
    have hdiv : (b * 2 ^ (k + 1) + a) / 2 = b * 2 ^ k + a / 2 := by
      have : b * 2 ^ (k + 1) = 2 * (b * 2 ^ k) := by ring
      rw [this]
      omega
    have hmod : (b * 2 ^ (k + 1) + a) % 2 = a % 2 := by
      have : b * 2 ^ (k + 1) = 2 * (b * 2 ^ k) := by ring
      rw [this]
      omega
    rw [popcount_mod_div (b * 2 ^ (k + 1) + a), hmod, hdiv,
      ih (a / 2) (by omega), popcount_mod_div a]
    ring

theorem popcount_repeatPattern (s copies v : ℕ) (hv : v < 2 ^ s) :
    popcount (repeatPattern s copies v) = copies * popcount v := by
  induction copies with
  | zero => simp [repeatPattern, popcount_zero]
  | succ c ih =>
    rw [repeatPattern_succ, Nat.shiftLeft_eq, Nat.add_comm,
      popcount_mul_pow_add v (s * c) _ (repeatPattern_lt s c v hv), ih]
    ring

theorem genRows_parity (r s copies : ℕ) (oldRows : List ℕ)
    (hold : ∀ v ∈ oldRows, v < 2 ^ s) (hcop : copies % 2 = 0) :
    ∀ (xs : List ℕ) (next : ℕ),
      ∀ v ∈ genRows r s copies oldRows next xs,
        popcount v % 2 = popcount next % 2 := by
  intro xs
  induction xs with
  | nil =>
    intro next v hv
    simp [genRows] at hv
  | cons idx rest ih =>
    intro next v hv
    simp only [genRows, List.mem_cons] at hv
    have hpar : popcount (next ^^^ repeatPattern s copies (oldLineAt r oldRows idx)) % 2 =
        popcount next % 2 := by
      rw [popcount_xor_parity,
        popcount_repeatPattern s copies _ (oldLineAt_lt r s oldRows hold idx)]
      have : copies * popcount (oldLineAt r oldRows idx) % 2 = 0 := by
        rcases Nat.even_mul.mpr (Or.inl (Nat.even_iff.mpr hcop)) with h
        exact Nat.even_iff.mp (Nat.even_mul.mpr (Or.inl (Nat.even_iff.mpr hcop)))
      omega
    rcases hv with rfl | hv
    · exact hpar
    · rw [ih _ v hv, hpar]

theorem rowParityOf_eq_zero (rows : List ℕ)
    (h : ∀ v ∈ rows, popcount v % 2 = 0) : rowParityOf rows = 0 := by
  unfold rowParityOf
  induction rows with
  | nil => rfl
  | cons v t ih =>
    simp only [List.foldl_cons]
    have hv : popcount v % 2 = 0 := h v (List.mem_cons_self v t)
    rw [hv]
    exact ih (fun x hx => h x (List.mem_cons_of_mem v hx))

/-! ### Characterisation of the operations -/

theorem wf_pos (T : TorusState) (h : wf T) : 1 ≤ T.r ∧ 1 ≤ T.s := by
  obtain ⟨-, -, hdim⟩ := h
  have hpos : 0 < 2 ^ (T.m * T.n) := Nat.pos_pow_of_pos _ (by norm_num)
  constructor
  · rcases Nat.eq_zero_or_pos T.r with h0 | h0
    · rw [h0, Nat.zero_mul] at hdim
      omega
    · exact h0
  · rcases Nat.eq_zero_or_pos T.s with h0 | h0
    · rw [h0, Nat.mul_zero] at hdim
      omega
    · exact h0

theorem rows_ne_nil (T : TorusState) (h : wf T) : T.rows ≠ [] := by
  obtain ⟨hr, -⟩ := wf_pos T h
  obtain ⟨hlen, -, -⟩ := h
  intro hcon
  rw [hcon] at hlen
  simp at hlen
  omega

theorem wf_transpose (T : TorusState) (h : wf T) : wf (Torus.transpose T) := by
  obtain ⟨hr, hs⟩ := wf_pos T h
  obtain ⟨hlen, hb, hdim⟩ := h
  have hne : T.rows ≠ [] := rows_ne_nil T ⟨hlen, hb, hdim⟩
  refine ⟨?_, ?_, ?_⟩
  · show (transposeRows T.s T.rows).length = T.s
    exact transposeRows_length T.s T.rows hne
  · show ∀ v ∈ transposeRows T.s T.rows, v < 2 ^ T.r
    intro v hv
    have := transposeRows_mem_lt T.s T.rows v hv
    rwa [hlen] at this
  · show T.s * T.r = 2 ^ (T.n * T.m)
    rw [Nat.mul_comm T.s T.r, Nat.mul_comm T.n T.m]
    exact hdim

theorem makeCore_dims (T : TorusState) (l0bits : List ℕ) (numRows copies : ℕ) :
    (makeCore T l0bits numRows copies).r = numRows ∧
    (makeCore T l0bits numRows copies).s = T.s * copies ∧
    (makeCore T l0bits numRows copies).m = T.m + 1 ∧
    (makeCore T l0bits numRows copies).n = T.n :=
  ⟨rfl, rfl, rfl, rfl⟩

theorem make_even (T : TorusState) (sd : Option (List ℕ)) (h : T.col_sums = 0) :
    Torus.make T sd = .ok (makeCore T (firstLineBits T sd) T.r (2 ^ T.n)) := by
  simp only [Torus.make, firstLineBits, if_pos h]

theorem make_odd (T : TorusState) (sd : Option (List ℕ)) (h0 : T.col_sums ≠ 0)
    (h1 : T.col_sums = 2 ^ T.s - 1) (hn : T.n ≠ 0) :
    Torus.make T sd =
      .ok (makeCore T (firstLineBits T sd) (2 * T.r) (2 ^ (T.n - 1))) := by
  simp only [Torus.make, firstLineBits, if_neg h0, if_pos h1, if_neg hn]

theorem make_odd_zero (T : TorusState) (sd : Option (List ℕ)) (h0 : T.col_sums ≠ 0)
    (h1 : T.col_sums = 2 ^ T.s - 1) (hn : T.n = 0) :
    Torus.make T sd = .error .typeError := by
  simp only [Torus.make, if_neg h0, if_pos h1, if_pos hn]

theorem make_invalid (T : TorusState) (sd : Option (List ℕ)) (h0 : T.col_sums ≠ 0)
    (h1 : T.col_sums ≠ 2 ^ T.s - 1) :
    Torus.make T sd = .error .invalidColumnParity := by
  simp only [Torus.make, if_neg h0, if_neg h1]

theorem make_ok_elim (T : TorusState) (sd : Option (List ℕ)) (T2 : TorusState)
    (hok : Torus.make T sd = .ok T2) :
    (T.col_sums = 0 ∨ (T.col_sums ≠ 0 ∧ T.col_sums = 2 ^ T.s - 1 ∧ T.n ≠ 0)) ∧
    T2 = makeCore T (firstLineBits T sd) (numRowsOf T) (copiesOf T) := by
  by_cases h0 : T.col_sums = 0
  · rw [make_even T sd h0] at hok
    refine ⟨Or.inl h0, ?_⟩
    simp only [numRowsOf, copiesOf, if_pos h0]
    exact (Except.ok.inj hok).symm
  · by_cases h1 : T.col_sums = 2 ^ T.s - 1
    · by_cases hn : T.n = 0
      · rw [make_odd_zero T sd h0 h1 hn] at hok
        cases hok
      · rw [make_odd T sd h0 h1 hn] at hok
        refine ⟨Or.inr ⟨h0, h1, hn⟩, ?_⟩
        simp only [numRowsOf, copiesOf, if_neg h0]
        exact (Except.ok.inj hok).symm
    · rw [make_invalid T sd h0 h1] at hok
      cases hok

/-! ### Concrete states used by witnesses and counterexamples -/

/-- T4: the (4, 4; 2, 2) torus from the class docstring (torus.py
lines 26-33), as produced by the constructor: rows 0010, 0001, 0111,
1011; every row and every column has an odd 1-count. -/
def T4 : TorusState :=
  { r := 4, s := 4, m := 2, n := 2, rows := [2, 1, 7, 11],
    row_sums := 15, col_sums := 15 }

/-! ### Claim C3 -/

/-- C3: applying transpose twice restores the packed byte content of the
backing store (the stored rows together with the width that fixes their
byte encoding) and the dimensions (r, s, m, n) exactly: for every
well-formed torus, transpose is an involution on the whole state. -/
theorem C3_transpose_roundtrip (T : TorusState) (h : wf T) :
    Torus.transpose (Torus.transpose T) = T := by
  obtain ⟨hr, hs⟩ := wf_pos T h
  have hne := rows_ne_nil T h
  obtain ⟨hlen, hb, hdim⟩ := h
  cases T with
  | mk r s m n rows rs cs =>
    have hne2 : rows ≠ [] := hne
    have hlen2 : rows.length = r := hlen
    have hb2 : ∀ v ∈ rows, v < 2 ^ s := hb
    have hs2 : 1 ≤ s := hs
    simp only [Torus.transpose, TorusState.mk.injEq, true_and, and_true]
    rw [← hlen2]
    exact transposeRows_involution s rows hne2 hs2 hb2

/-- Witness for C3 at the docstring torus. -/
theorem C3_witness : wf T4 ∧ Torus.transpose (Torus.transpose T4) = T4 :=
  ⟨by decide, C3_transpose_roundtrip T4 (by decide)⟩

theorem make_preserves_dim (T : TorusState) (sd : Option (List ℕ))
    (T2 : TorusState) (hdim : T.r * T.s = 2 ^ (T.m * T.n))
    (hok : Torus.make T sd = .ok T2) :
    T2.r * T2.s = 2 ^ (T2.m * T2.n) := by
  obtain ⟨hcase, rfl⟩ := make_ok_elim T sd T2 hok
  show numRowsOf T * (T.s * copiesOf T) = 2 ^ ((T.m + 1) * T.n)
  rcases hcase with h0 | ⟨h0, h1, hn⟩
  · rw [numRowsOf, copiesOf, if_pos h0, if_pos h0]
    calc T.r * (T.s * 2 ^ T.n) = T.r * T.s * 2 ^ T.n := by ring
      _ = 2 ^ (T.m * T.n) * 2 ^ T.n := by rw [hdim]
      _ = 2 ^ (T.m * T.n + T.n) := by rw [← pow_add]
      _ = 2 ^ ((T.m + 1) * T.n) := by ring_nf
  · rw [numRowsOf, copiesOf, if_neg h0, if_neg h0]
    have hn1 : T.n - 1 + 1 = T.n := by omega
    calc 2 * T.r * (T.s * 2 ^ (T.n - 1)) = T.r * T.s * (2 ^ (T.n - 1) * 2) := by
          ring
      _ = 2 ^ (T.m * T.n) * 2 ^ (T.n - 1 + 1) := by rw [hdim, pow_succ]
      _ = 2 ^ (T.m * T.n + T.n) := by rw [hn1, ← pow_add]
      _ = 2 ^ ((T.m + 1) * T.n) := by ring_nf

theorem numRowsOf_pow (T : TorusState) (hdim : T.r * T.s = 2 ^ (T.m * T.n)) :
    ∃ a, numRowsOf T = 2 ^ a := by
  have hrdvd : T.r ∣ 2 ^ (T.m * T.n) := ⟨T.s, hdim.symm⟩
  obtain ⟨k, -, hk⟩ := (Nat.dvd_prime_pow Nat.prime_two).mp hrdvd
  unfold numRowsOf
  split_ifs
  · exact ⟨k, hk⟩
  · exact ⟨k + 1, by rw [hk, pow_succ]; ring⟩

/-! ### Claim C5 -/

/-- C5: the invariant r * s = 2^(m*n) holds at all times: construction
from an r-by-s matrix fails with the dimension-mismatch error whenever
r * s is not 2^(m*n), a successful construction satisfies the invariant,
and both transpose and every successful construction step preserve it
for the updated dimensions. -/
theorem C5_dimension_invariant :
    (∀ (values : List (List ℕ)) (m n : ℕ) (v0 : List ℕ) (vrest : List (List ℕ)),
      values = v0 :: vrest → values.length * v0.length ≠ 2 ^ (m * n) →
      Torus.init values m n = .error .dimensionMismatch) ∧
    (∀ (values : List (List ℕ)) (m n : ℕ) (T : TorusState),
      Torus.init values m n = .ok T → T.r * T.s = 2 ^ (T.m * T.n)) ∧
    (∀ T : TorusState, T.r * T.s = 2 ^ (T.m * T.n) →
      (Torus.transpose T).r * (Torus.transpose T).s =
        2 ^ ((Torus.transpose T).m * (Torus.transpose T).n)) ∧
    (∀ (T : TorusState) (sd : Option (List ℕ)) (T2 : TorusState),
      T.r * T.s = 2 ^ (T.m * T.n) → Torus.make T sd = .ok T2 →
      T2.r * T2.s = 2 ^ (T2.m * T2.n)) := by
  refine ⟨?_, ?_, ?_, ?_⟩
  · intro values m n v0 vrest hv hne
    subst hv
    simp only [Torus.init]
    rw [if_pos hne]
  · intro values m n T hok
    cases values with
    | nil =>
      simp only [Torus.init] at hok
      exact Except.noConfusion hok
    | cons v0 rest =>
      simp only [Torus.init] at hok
      by_cases hc : (v0 :: rest).length * v0.length ≠ 2 ^ (m * n)
      · rw [if_pos hc] at hok
        exact Except.noConfusion hok
      · rw [if_neg hc] at hok
        push_neg at hc
        obtain rfl := Except.ok.inj hok
        exact hc
  · intro T h
    show T.s * T.r = 2 ^ (T.n * T.m)
    rw [Nat.mul_comm T.s T.r, Nat.mul_comm T.n T.m]
    exact h
  · intro T sd T2 hdim hok
    exact make_preserves_dim T sd T2 hdim hok

/-- Witness for C5: the mismatched 3-by-2 construction fails with the
dimension-mismatch error, and transpose preserves the invariant on the
docstring torus. -/
theorem C5_witness :
    Torus.init [[0, 1], [1, 0], [0, 0]] 2 2 = .error .dimensionMismatch ∧
    (Torus.transpose T4).r * (Torus.transpose T4).s =
      2 ^ ((Torus.transpose T4).m * (Torus.transpose T4).n) :=
  ⟨C5_dimension_invariant.1 [[0, 1], [1, 0], [0, 0]] 2 2 [0, 1] [[1, 0], [0, 0]]
      rfl (by decide),
    C5_dimension_invariant.2.2.1 T4 (by decide)⟩

/-! ### Claim C1 -/

/-- Tbad: the (1, 1; 0, 0) torus holding the single value 1, as produced
by Torus.init [[1]] 0 0.  Its column parity summary is all-ones
(col_sums = 1 = 2^1 - 1), so make selects the odd construction with
n = 0, where Python evaluates 2 ** (n - 1) to the float 0.5 and the
streaming loop crashes with a TypeError. -/
def Tbad : TorusState :=
  { r := 1, s := 1, m := 0, n := 0, rows := [1], row_sums := 1, col_sums := 1 }

/-- Counterexample to C1 as stated: on the reachable torus Tbad the
column parity summary is all-ones over s bits, yet make does not succeed
with dimensions (2r, s*2^(n-1); m+1, n) — it fails with a TypeError,
because n = 0 makes the Python expression 2 ** (n - 1) a float. -/
theorem C1_counterexample :
    Torus.init [[1]] 0 0 = .ok Tbad ∧
    Tbad.col_sums = 2 ^ Tbad.s - 1 ∧
    Torus.make Tbad none = .error .typeError := by
  refine ⟨by decide, by decide, ?_⟩
  decide

/-- C1 (amended): for every well-formed torus and every seed obeying the
documented length discipline: when colParity = 0, make succeeds and the
dimensions become (r, s*2^n; m+1, n); when colParity is all-ones over s
bits and n is at least 1, make succeeds and the dimensions become
(2r, s*2^(n-1); m+1, n); when colParity is all-ones and n = 0, make
fails with a TypeError (not a clean selection error); in every other
case make fails with the invariant-violation (InvalidColumnParity)
error and no construction is applied. -/
theorem C1_make_selection (T : TorusState) (sd : Option (List ℕ)) (hwf : wf T)
    (_hgs : goodSeed T sd) :
    (T.col_sums = 0 → ∃ T2, Torus.make T sd = .ok T2 ∧ T2.r = T.r ∧
      T2.s = T.s * 2 ^ T.n ∧ T2.m = T.m + 1 ∧ T2.n = T.n) ∧
    (T.col_sums = 2 ^ T.s - 1 ∧ 1 ≤ T.n → ∃ T2, Torus.make T sd = .ok T2 ∧
      T2.r = 2 * T.r ∧ T2.s = T.s * 2 ^ (T.n - 1) ∧ T2.m = T.m + 1 ∧
      T2.n = T.n) ∧
    (T.col_sums = 2 ^ T.s - 1 ∧ T.n = 0 →
      Torus.make T sd = .error .typeError) ∧
    (T.col_sums ≠ 0 ∧ T.col_sums ≠ 2 ^ T.s - 1 →
      Torus.make T sd = .error .invalidColumnParity) := by
  obtain ⟨hr, hs⟩ := wf_pos T hwf
  have hodd_ne : T.col_sums = 2 ^ T.s - 1 → T.col_sums ≠ 0 := by
    intro h1
    rw [h1]
    have h2s : 2 ≤ 2 ^ T.s := by
      calc 2 = 2 ^ 1 := by norm_num
        _ ≤ 2 ^ T.s := Nat.pow_le_pow_right (by norm_num) hs
    omega
  refine ⟨?_, ?_, ?_, ?_⟩
  · intro h0
    exact ⟨_, make_even T sd h0, rfl, rfl, rfl, rfl⟩
  · rintro ⟨h1, hn⟩
    exact ⟨_, make_odd T sd (hodd_ne h1) h1 (by omega), rfl, rfl, rfl, rfl⟩
  · rintro ⟨h1, hn⟩
    exact make_odd_zero T sd (hodd_ne h1) h1 hn
  · rintro ⟨h0, h1⟩
    exact make_invalid T sd h0 h1

/-- Witness for C1 at the docstring torus T4 (all-odd columns, n = 2):
the odd construction applies and yields an (8, 8; 3, 2) torus. -/
theorem C1_witness :
    ∃ T2, Torus.make T4 none = .ok T2 ∧ T2.r = 2 * T4.r ∧
      T2.s = T4.s * 2 ^ (T4.n - 1) ∧ T2.m = T4.m + 1 ∧ T2.n = T4.n :=
  (C1_make_selection T4 none (by decide) (by decide)).2.1 ⟨by decide, by decide⟩

/-! ### Claim C9 -/

/-- T9: the (2, 2; 2, 1) torus with rows 10 and 01, as produced by
Torus.init [[1,0],[0,1]] 2 1.  Both columns have an odd 1-count and
n = 1 is below 2. -/
def T9 : TorusState :=
  { r := 2, s := 2, m := 2, n := 1, rows := [2, 1], row_sums := 3, col_sums := 3 }

/-- Counterexample to C9 as stated: T9 has all-odd column sums and
n = 1 < 2, yet make does not fail at all — there is no UnsupportedOrder
check in the code; the step succeeds and produces a (4, 2; 3, 1) torus
whose first new row is all-zero. -/
theorem C9_counterexample :
    Torus.init [[1, 0], [0, 1]] 2 1 = .ok T9 ∧
    T9.col_sums = 2 ^ T9.s - 1 ∧ T9.n < 2 ∧
    Torus.make T9 none =
      .ok { r := 4, s := 2, m := 3, n := 1, rows := [0, 2, 3, 1],
            row_sums := 5, col_sums := 0 } := by
  refine ⟨by decide, by decide, by decide, ?_⟩
  decide

/-- C9 (amended): the code has no UnsupportedOrder error.  When the
column sums are all odd and n = 1, make succeeds, producing a
(2r, s; m+1, 1) torus (the seed-derived part of the first row is empty,
so the first new row is all-zero); when the column sums are all odd and
n = 0, make fails, but with a TypeError — Python computes
num_copies = 2 ** (-1) = 0.5 and range(num_copies) raises — rather than
a clean UnsupportedOrder error. -/
theorem C9_odd_low_order (T : TorusState) (sd : Option (List ℕ)) (hwf : wf T)
    (h1 : T.col_sums = 2 ^ T.s - 1) :
    (T.n = 1 → ∃ T2, Torus.make T sd = .ok T2 ∧ T2.r = 2 * T.r ∧
      T2.s = T.s ∧ T2.m = T.m + 1 ∧ T2.n = 1) ∧
    (T.n = 0 → Torus.make T sd = .error .typeError) := by
  obtain ⟨hr, hs⟩ := wf_pos T hwf
  have hne : T.col_sums ≠ 0 := by
    rw [h1]
    have h2s : 2 ≤ 2 ^ T.s := by
      calc 2 = 2 ^ 1 := by norm_num
        _ ≤ 2 ^ T.s := Nat.pow_le_pow_right (by norm_num) hs
    omega
  constructor
  · intro hn
    refine ⟨_, make_odd T sd hne h1 (by omega), rfl, ?_, rfl, hn⟩
    show T.s * 2 ^ (T.n - 1) = T.s
    rw [hn]
    norm_num
  · intro hn
    exact make_odd_zero T sd hne h1 hn

/-- Witness for C9 at the concrete tori T9 (n = 1) and Tbad (n = 0). -/
theorem C9_witness :
    (∃ T2, Torus.make T9 none = .ok T2 ∧ T2.r = 2 * T9.r ∧ T2.s = T9.s ∧
      T2.m = T9.m + 1 ∧ T2.n = 1) ∧
    Torus.make Tbad none = .error .typeError :=
  ⟨(C9_odd_low_order T9 none (by decide) (by decide)).1 rfl,
    (C9_odd_low_order Tbad none (by decide) (by decide)).2 rfl⟩

/-! ### Claim C7 -/

theorem toBytesBE_length (len : ℕ) : ∀ n, (toBytesBE len n).length = len := by
  induction len with
  | zero => intro n; rfl
  | succ len ih =>
    intro n
    simp only [toBytesBE, List.length_append, ih, List.length_singleton]

theorem bytesToNat_concat (l : List ℕ) (b : ℕ) :
    bytesToNat (l ++ [b]) = 256 * bytesToNat l + b := by
  unfold bytesToNat
  rw [List.foldl_append]
  rfl

theorem bytesToNat_toBytesBE (len : ℕ) : ∀ n, n < 256 ^ len →
    bytesToNat (toBytesBE len n) = n := by
  induction len with
  | zero =>
    intro n h
    have : n = 0 := by
      simp only [pow_zero] at h
      omega
    subst this
    rfl
  | succ len ih =>
    intro n h
    have hdivlt : n / 256 < 256 ^ len := by
      rw [Nat.div_lt_iff_lt_mul (by norm_num)]
      calc n < 256 ^ (len + 1) := h
        _ = 256 ^ len * 256 := by rw [pow_succ]
    simp only [toBytesBE]
    rw [bytesToNat_concat, ih _ hdivlt]
    omega

/-- Counterexample to C7 as stated: pack right-justifies, it does not
left-justify.  Packing the single row 1000 (width 4) emits the byte
0x08, whose unpacked 8 bits are 00001000 — the row bits sit at the low
end of the byte with leading padding zeros, not at the high end with
trailing zeros as the claim demands (which would be the byte 0x80). -/
theorem C7_counterexample :
    pack [1, 0, 0, 0] (bytesFor 4) = [8] ∧
    bitsOfNum 8 (bytesToNat (pack [1, 0, 0, 0] (bytesFor 4))) =
      [0, 0, 0, 0, 1, 0, 0, 0] ∧
    [0, 0, 0, 0, 1, 0, 0, 0] ≠ [1, 0, 0, 0] ++ List.replicate 4 0 := by
  refine ⟨by decide, by decide, by decide⟩

/-- C7 (amended): for every sequence of bits, pack emits exactly
byteLength = ceil(len(bits)/8) bytes whose big-endian value is the value
of the bit string, i.e. the bits are right-justified: the bit string of
the emitted bytes is the row bits preceded (not followed) by
8*byteLength - len(bits) leading zero bits.  In particular a row whose
width is a multiple of 8 is stored most-significant-bit-first exactly as
the claim states. -/
theorem C7_pack_right_justified (bits : List ℕ) (h : ∀ b ∈ bits, b < 2) :
    (pack bits (bytesFor bits.length)).length = bytesFor bits.length ∧
    bytesToNat (pack bits (bytesFor bits.length)) = numOfBits bits ∧
    bitsOfNum (8 * bytesFor bits.length) (numOfBits bits) =
      List.replicate (8 * bytesFor bits.length - bits.length) 0 ++ bits := by
  have hlen8 : bits.length ≤ 8 * bytesFor bits.length := by
    unfold bytesFor
    omega
  have hval : numOfBits bits < 2 ^ bits.length := numOfBits_lt bits h
  refine ⟨toBytesBE_length _ _, ?_, ?_⟩
  · apply bytesToNat_toBytesBE
    calc numOfBits bits < 2 ^ bits.length := hval
      _ ≤ 2 ^ (8 * bytesFor bits.length) :=
        Nat.pow_le_pow_right (by norm_num) hlen8
      _ = 256 ^ bytesFor bits.length := by
        rw [show (256 : ℕ) = 2 ^ 8 by norm_num, ← pow_mul]
  · have hwide := bitsOfNum_wide (8 * bytesFor bits.length - bits.length)
      bits.length (numOfBits bits) hval
    rw [show 8 * bytesFor bits.length - bits.length + bits.length =
      8 * bytesFor bits.length from by omega] at hwide
    rw [hwide]
    congr 1
    exact bitsOfNum_numOfBits bits h

/-- Witness for C7 at the concrete row 1000. -/
theorem C7_witness :
    (pack [1, 0, 0, 0] (bytesFor 4)).length = bytesFor 4 ∧
    bytesToNat (pack [1, 0, 0, 0] (bytesFor 4)) = numOfBits [1, 0, 0, 0] ∧
    bitsOfNum (8 * bytesFor 4) (numOfBits [1, 0, 0, 0]) =
      List.replicate (8 * bytesFor 4 - 4) 0 ++ [1, 0, 0, 0] :=
  C7_pack_right_justified [1, 0, 0, 0] (by decide)

/-! ### Claim C10 -/

/-- Tdeg10: the (1, 1; 1, 0) all-zero torus, as produced by
Torus.init [[0]] 1 0.  Its column parity is 0, so make selects the even
construction with num_rows = 1: the loop body never runs, the flush
check is never reached, and the single constructed row stays in the
buffer — the rewritten store ends up empty. -/
def Tdeg10 : TorusState :=
  { r := 1, s := 1, m := 1, n := 0, rows := [0], row_sums := 0, col_sums := 0 }

/-- Counterexample to C10 as stated: on the reachable torus Tdeg10 the
construction step succeeds, but the backing store is left with 0 packed
rows instead of numRows = 1 — the first row is buffered before the loop
and the flush only fires inside the loop, which runs numRows - 1 = 0
times. -/
theorem C10_counterexample :
    Torus.init [[0]] 1 0 = .ok Tdeg10 ∧
    numRowsOf Tdeg10 = 1 ∧
    Torus.make Tdeg10 none =
      .ok { r := 1, s := 1, m := 2, n := 0, rows := [],
            row_sums := 0, col_sums := 0 } ∧
    ([] : List ℕ).length ≠ numRowsOf Tdeg10 := by
  refine ⟨by decide, by decide, ?_, by decide⟩
  decide

/-- C10 (amended): for every well-formed torus, a successful
construction step with numRows at least 2 leaves the backing store
containing exactly numRows packed rows (numRows = r in the even case,
2r in the odd case): numRows is then a power of two, hence a multiple of
the batch size min(numRows, 1024), so the final flush fires exactly at
the last row and no buffered row remains unwritten.  Under the
documented seed length discipline each stored row value fits the new
width and is emitted as exactly ceil(new-s/8) bytes.  When numRows = 1
(even case on a single-row torus) the loop never runs and the store is
left empty. -/
theorem C10_flush_complete (T : TorusState) (sd : Option (List ℕ))
    (T2 : TorusState) (hwf : wf T) (hok : Torus.make T sd = .ok T2)
    (h2 : 2 ≤ numRowsOf T) :
    T2.rows.length = numRowsOf T ∧
    (goodSeed T sd →
      (∀ v ∈ T2.rows, v < 2 ^ T2.s) ∧
      ∀ v ∈ T2.rows, (toBytesBE (bytesFor T2.s) v).length = bytesFor T2.s) := by
  obtain ⟨hcase, rfl⟩ := make_ok_elim T sd T2 hok
  have hpow : ∃ a, numRowsOf T = 2 ^ a := numRowsOf_pow T hwf.2.2
  have hrows := makeCore_rows T (firstLineBits T sd) (numRowsOf T) (copiesOf T)
    h2 hpow
  constructor
  · rw [hrows]
    simp only [List.length_cons, genRows_length, List.length_range]
    omega
  · intro hgs
    obtain ⟨hgl, hgb⟩ := hgs
    obtain ⟨-, hb, -⟩ := hwf
    have hl0 : numOfBits (firstLineBits T sd) < 2 ^ (T.s * copiesOf T) := by
      have := numOfBits_lt (firstLineBits T sd) hgb
      rwa [hgl] at this
    have hbound : ∀ v ∈ (makeCore T (firstLineBits T sd) (numRowsOf T)
        (copiesOf T)).rows, v < 2 ^ (T.s * copiesOf T) := by
      intro v hv
      rw [hrows] at hv
      rcases List.mem_cons.mp hv with rfl | hv
      · exact hl0
      · exact genRows_mem_lt T.r T.s (copiesOf T) T.rows hb _ _ hl0 v hv
    exact ⟨hbound, fun v _ => toBytesBE_length _ _⟩

/-- T4big: the (8, 8; 3, 2) torus produced by the construction step on
the docstring torus T4. -/
def T4big : TorusState :=
  { r := 8, s := 8, m := 3, n := 2, rows := [5, 39, 54, 65, 250, 216, 201, 190],
    row_sums := 0, col_sums := 0 }

/-- Witness for C10 at the docstring torus T4. -/
theorem C10_witness :
    T4big.rows.length = numRowsOf T4 ∧
    (goodSeed T4 none →
      (∀ v ∈ T4big.rows, v < 2 ^ T4big.s) ∧
      ∀ v ∈ T4big.rows, (toBytesBE (bytesFor T4big.s) v).length =
        bytesFor T4big.s) :=
  C10_flush_complete T4 none T4big (by decide) (by decide) (by decide)

/-! ### Claim C4 -/

/-- C4: evaluation of the generator at the failing input k = 0.  The
docstring promises a de Bruijn sequence of the given order, and the
claim demands length 2^k with every length-k window occurring exactly
once; a correct order-0 sequence has length 2^0 = 1, but the code
returns the empty list (the first iteration emits word[:1] of the empty
working word, then the all-ones scan sets i = order = 0 and the loop
exits).  For k = 1, 2, 3, 4 the output is verified below to be a
correct de Bruijn sequence. -/
theorem C4_debruijn_order_zero :
    debruijn 0 = [] ∧ (debruijn 0).length ≠ 2 ^ 0 ∧
      ¬ isDeBruijn 0 (debruijn 0) := by
  refine ⟨by decide, by decide, by decide⟩

/-- Sanity: the generator output is a correct de Bruijn sequence for
orders 1 through 4 (exhaustive check). -/
theorem debruijn_small_orders :
    isDeBruijn 1 (debruijn 1) ∧ isDeBruijn 2 (debruijn 2) ∧
    isDeBruijn 3 (debruijn 3) ∧ isDeBruijn 4 (debruijn 4) := by
  refine ⟨by decide, by decide, by decide, ?_⟩
  decide

/-! ### Counting ones in a de Bruijn sequence (for claim C8) -/

theorem length_allWords (n : ℕ) : (allWords n).length = 2 ^ n := by
  induction n with
  | zero => rfl
  | succ n ih =>
    simp only [allWords, List.length_append, List.length_map, ih, pow_succ]
    ring

theorem mem_allWords (n : ℕ) : ∀ w : List ℕ,
    w ∈ allWords n ↔ (w.length = n ∧ ∀ b ∈ w, b < 2) := by
  induction n with
  | zero =>
    intro w
    simp only [allWords, List.mem_singleton]
    constructor
    · rintro rfl
      exact ⟨rfl, by intro b hb; cases hb⟩
    · rintro ⟨hl, -⟩
      exact List.length_eq_zero.mp hl
  | succ n ih =>
    intro w
    constructor
    · intro hw
      rcases List.mem_append.mp hw with h | h
      · obtain ⟨t, ht, rfl⟩ := List.mem_map.mp h
        obtain ⟨hl, hb⟩ := (ih t).mp ht
        refine ⟨by simp [hl], ?_⟩
        intro b hb2
        rcases List.mem_cons.mp hb2 with rfl | h2
        · omega
        · exact hb _ h2
      · obtain ⟨t, ht, rfl⟩ := List.mem_map.mp h
        obtain ⟨hl, hb⟩ := (ih t).mp ht
        refine ⟨by simp [hl], ?_⟩
        intro b hb2
        rcases List.mem_cons.mp hb2 with rfl | h2
        · omega
        · exact hb _ h2
    · rintro ⟨hl, hb⟩
      match w with
      | b :: t =>
        have hbb : b < 2 := hb b (List.mem_cons_self b t)
        have ht : t ∈ allWords n := (ih t).mpr
          ⟨by simpa using hl, fun x hx => hb x (List.mem_cons_of_mem b hx)⟩
        rcases (by omega : b = 0 ∨ b = 1) with rfl | rfl
        · exact List.mem_append.mpr (Or.inl (List.mem_map.mpr ⟨t, ht, rfl⟩))
        · exact List.mem_append.mpr (Or.inr (List.mem_map.mpr ⟨t, ht, rfl⟩))

theorem nodup_allWords (n : ℕ) : (allWords n).Nodup := by
  induction n with
  | zero => simp [allWords]
  | succ n ih =>
    simp only [allWords]
    rw [List.nodup_append]
    refine ⟨?_, ?_, ?_⟩
    · exact ih.map (fun a b hab => (List.cons.injEq _ _ _ _).mp hab |>.2)
    · exact ih.map (fun a b hab => (List.cons.injEq _ _ _ _).mp hab |>.2)
    · intro w h1 h2
      obtain ⟨t1, -, rfl⟩ := List.mem_map.mp h1
      obtain ⟨t2, -, heq⟩ := List.mem_map.mp h2
      exact absurd ((List.cons.injEq _ _ _ _).mp heq.symm).1 (by norm_num)

theorem window_length (sd : List ℕ) (n i : ℕ) : (window sd n i).length = n := by
  simp [window]

theorem window_mem_allWords (n : ℕ) (sd : List ℕ) (hb : ∀ b ∈ sd, b < 2)
    (i : ℕ) : window sd n i ∈ allWords n := by
  rw [mem_allWords]
  refine ⟨window_length sd n i, ?_⟩
  intro b hbm
  obtain ⟨j, -, rfl⟩ := List.mem_map.mp hbm
  exact getD_lt_of_forall sd _ 2 (by norm_num) hb

theorem window_head (n : ℕ) (sd : List ℕ) (hn : 1 ≤ n)
    (hlen : sd.length = 2 ^ n) (i : ℕ) (hi : i < 2 ^ n) :
    (window sd n i).headD 0 = sd.getD i 0 := by
  obtain ⟨k, rfl⟩ : ∃ k, n = k + 1 := ⟨n - 1, by omega⟩
  unfold window
  rw [List.range_succ_eq_map]
  simp only [List.map_cons, List.headD_cons, Nat.add_zero]
  rw [hlen, Nat.mod_eq_of_lt hi]

theorem count_head_one (n : ℕ) (hn : 1 ≤ n) :
    ((allWords n).filter (fun w => w.headD 0 = 1)).length = 2 ^ (n - 1) := by
  obtain ⟨k, rfl⟩ : ∃ k, n = k + 1 := ⟨n - 1, by omega⟩
  simp only [allWords, List.filter_append]
  have h0 : ((allWords k).map (0 :: ·)).filter
      (fun w => decide (w.headD 0 = 1)) = [] := by
    apply List.filter_eq_nil_iff.mpr
    intro w hw
    obtain ⟨t, -, rfl⟩ := List.mem_map.mp hw
    simp
  have h1 : ((allWords k).map (1 :: ·)).filter
      (fun w => decide (w.headD 0 = 1)) = (allWords k).map (1 :: ·) := by
    apply List.filter_eq_self.mpr
    intro w hw
    obtain ⟨t, -, rfl⟩ := List.mem_map.mp hw
    simp
  rw [h0, h1]
  simp [length_allWords]

theorem deBruijn_count_ones (n : ℕ) (sd : List ℕ) (hdb : isDeBruijn n sd)
    (hn : 1 ≤ n) :
    ((Finset.range (2 ^ n)).filter (fun i => sd.getD i 0 = 1)).card =
      2 ^ (n - 1) := by
  obtain ⟨hlen, hb, hcount⟩ := hdb
  classical
  set W1 : Finset (List ℕ) :=
    ((allWords n).filter (fun w => w.headD 0 = 1)).toFinset with hW1
  have hunion : W1.biUnion
      (fun w => (Finset.range (2 ^ n)).filter (fun i => window sd n i = w)) =
      (Finset.range (2 ^ n)).filter (fun i => sd.getD i 0 = 1) := by
    ext i
    simp only [hW1, Finset.mem_biUnion, Finset.mem_filter, Finset.mem_range,
      List.mem_toFinset, List.mem_filter, decide_eq_true_eq]
    constructor
    · rintro ⟨w, ⟨-, hwhead⟩, hi, hwin⟩
      refine ⟨hi, ?_⟩
      rw [← window_head n sd hn hlen i hi, hwin]
      exact hwhead
    · rintro ⟨hi, hone⟩
      refine ⟨window sd n i, ⟨window_mem_allWords n sd hb i, ?_⟩, hi, rfl⟩
      rw [window_head n sd hn hlen i hi]
      exact hone
  have hdisj : ∀ w ∈ W1, ∀ w2 ∈ W1, w ≠ w2 →
      Disjoint ((Finset.range (2 ^ n)).filter (fun i => window sd n i = w))
        ((Finset.range (2 ^ n)).filter (fun i => window sd n i = w2)) := by
    intro w _ w2 _ hne
    rw [Finset.disjoint_left]
    intro i hi1 hi2
    rw [Finset.mem_filter] at hi1 hi2
    exact hne (hi1.2 ▸ hi2.2 ▸ rfl)
  have hcard := Finset.card_biUnion hdisj
  rw [hunion] at hcard
  rw [hcard]
  have hall1 : ∀ w ∈ W1,
      ((Finset.range (2 ^ n)).filter (fun i => window sd n i = w)).card = 1 := by
    intro w hw
    rw [hW1, List.mem_toFinset, List.mem_filter] at hw
    exact hcount w hw.1
  rw [Finset.sum_congr rfl hall1]
  simp only [Finset.sum_const, smul_eq_mul, mul_one]
  rw [hW1, List.toFinset_card_of_nodup ((nodup_allWords n).filter _)]
  exact count_head_one n hn

theorem sum_getD (sd : List ℕ) :
    sd.sum = ∑ i ∈ Finset.range sd.length, sd.getD i 0 := by
  induction sd with
  | nil => simp
  | cons b t ih =>
    simp only [List.sum_cons, List.length_cons]
    rw [Finset.sum_range_succ']
    simp only [List.getD_cons_succ, List.getD_cons_zero]
    rw [← ih]
    omega

theorem sum_eq_count (sd : List ℕ) (hb : ∀ b ∈ sd, b < 2) :
    sd.sum = ((Finset.range sd.length).filter (fun i => sd.getD i 0 = 1)).card := by
  classical
  rw [Finset.card_filter, sum_getD sd]
  apply Finset.sum_congr rfl
  intro i _
  have hlt : sd.getD i 0 < 2 := getD_lt_of_forall sd i 2 (by norm_num) hb
  by_cases h1 : sd.getD i 0 = 1
  · rw [if_pos h1, h1]
  · rw [if_neg h1]
    omega

theorem deBruijn_sum (n : ℕ) (sd : List ℕ) (hdb : isDeBruijn n sd)
    (hn : 1 ≤ n) : sd.sum = 2 ^ (n - 1) := by
  have hlen := hdb.1
  have hb := hdb.2.1
  rw [sum_eq_count sd hb, hlen]
  exact deBruijn_count_ones n sd hdb hn

/-! ### Claim C8 -/

theorem pyRepeat_sum (l : List ℕ) (k : ℕ) : (pyRepeat l k).sum = k * l.sum := by
  unfold pyRepeat
  rw [List.sum_flatten, List.map_replicate, List.sum_replicate, smul_eq_mul]

theorem pyRepeat_mem (l : List ℕ) (k : ℕ) : ∀ b ∈ pyRepeat l k, b ∈ l := by
  intro b hb
  unfold pyRepeat at hb
  obtain ⟨x, hx, hbx⟩ := List.mem_flatten.mp hb
  rw [List.eq_of_mem_replicate hx] at hbx
  exact hbx

/-- C8: for every well-formed torus with n at least 2 and all-even
column sums, the torus produced by the even-case construction step with
a seed obeying the documented contract (an order-n de Bruijn sequence
that starts with n zeroes) has every row sum even: the row parity
summary is zero, every stored row has even popcount, and after a
transpose the column parity summary is zero again, so the even
construction is applicable once more. -/
theorem C8_even_construction_row_sums (T : TorusState) (sd : List ℕ)
    (T2 : TorusState) (hwf : wf T) (hn : 2 ≤ T.n) (hcol : T.col_sums = 0)
    (hdb : isDeBruijn T.n sd) (hz : sd.take T.n = List.replicate T.n 0)
    (hok : Torus.make T (some sd) = .ok T2) :
    T2.row_sums = 0 ∧ (∀ v ∈ T2.rows, popcount v % 2 = 0) ∧
      (Torus.transpose T2).col_sums = 0 := by
  rw [make_even T (some sd) hcol] at hok
  obtain rfl := Except.ok.inj hok
  have hflb_even : firstLineBits T (some sd) =
      List.replicate T.s 0 ++ pyRepeat (sd.drop 1) T.s := by
    unfold firstLineBits
    rw [if_pos hcol]
    rfl
  have hbits : ∀ b ∈ firstLineBits T (some sd), b < 2 := by
    rw [hflb_even]
    intro b hbm
    rcases List.mem_append.mp hbm with h | h
    · rw [List.eq_of_mem_replicate h]
      norm_num
    · exact hdb.2.1 _ (List.mem_of_mem_drop (pyRepeat_mem _ _ b h))
  have hl0sum : (firstLineBits T (some sd)).sum = T.s * (sd.drop 1).sum := by
    rw [hflb_even, List.sum_append, pyRepeat_sum]
    simp [List.sum_replicate]
  have hdropsum : (sd.drop 1).sum = 2 ^ (T.n - 1) := by
    have hsum := deBruijn_sum T.n sd hdb (by omega)
    have hlen : sd.length = 2 ^ T.n := hdb.1
    have hne : sd ≠ [] := by
      intro hc
      rw [hc] at hlen
      have := Nat.pos_pow_of_pos T.n (show 0 < 2 by norm_num)
      simp at hlen
      omega
    cases sd with
    | nil => exact absurd rfl hne
    | cons a t =>
      have ha : a = 0 := by
        obtain ⟨k, hk⟩ : ∃ k, T.n = k + 1 := ⟨T.n - 1, by omega⟩
        rw [hk] at hz
        simp only [List.take_succ_cons, List.replicate_succ,
          List.cons.injEq] at hz
        exact hz.1
      simp only [List.sum_cons, ha, Nat.zero_add] at hsum
      simpa using hsum
  have hl0par : popcount (numOfBits (firstLineBits T (some sd))) % 2 = 0 := by
    rw [popcount_numOfBits _ hbits, hl0sum, hdropsum]
    have heven : 2 ^ (T.n - 1) % 2 = 0 := by
      obtain ⟨k, hk⟩ : ∃ k, T.n - 1 = k + 1 := ⟨T.n - 2, by omega⟩
      rw [hk, pow_succ]
      omega
    rw [Nat.mul_mod, heven]
    simp
  have hall : ∀ v ∈ numOfBits (firstLineBits T (some sd)) ::
      genRows T.r T.s (2 ^ T.n) T.rows (numOfBits (firstLineBits T (some sd)))
        (List.range (T.r - 1)),
      popcount v % 2 = 0 := by
    intro v hv
    rcases List.mem_cons.mp hv with rfl | hv
    · exact hl0par
    · have hcop : (2 : ℕ) ^ T.n % 2 = 0 := by
        obtain ⟨k, hk⟩ : ∃ k, T.n = k + 1 := ⟨T.n - 1, by omega⟩
        rw [hk, pow_succ]
        omega
      rw [genRows_parity T.r T.s (2 ^ T.n) T.rows hwf.2.1 hcop _ _ v hv]
      exact hl0par
  have h1 : (makeCore T (firstLineBits T (some sd)) T.r (2 ^ T.n)).row_sums = 0 := by
    rw [(makeCore_sums T (firstLineBits T (some sd)) T.r (2 ^ T.n)).1]
    exact rowParityOf_eq_zero _ hall
  refine ⟨h1, ?_, h1⟩
  intro v hv
  rcases Nat.lt_or_ge T.r 2 with hr2 | hr2
  · have hnil : (makeCore T (firstLineBits T (some sd)) T.r (2 ^ T.n)).rows = [] := by
      show (makeLoop T (firstLineBits T (some sd)) T.r (2 ^ T.n)).written = []
      rw [makeLoop_small T (firstLineBits T (some sd)) T.r (2 ^ T.n) hr2]
    rw [hnil] at hv
    cases hv
  · have hpow : ∃ a, T.r = 2 ^ a := by
      obtain ⟨-, -, hdim⟩ := hwf
      obtain ⟨k, -, hk⟩ := (Nat.dvd_prime_pow Nat.prime_two).mp ⟨T.s, hdim.symm⟩
      exact ⟨k, hk⟩
    rw [makeCore_rows T (firstLineBits T (some sd)) T.r (2 ^ T.n) hr2 hpow] at hv
    exact hall v hv

/-- T8: a (2, 2; 1, 2) all-ones torus with even column sums. -/
def T8 : TorusState :=
  { r := 2, s := 2, m := 1, n := 2, rows := [3, 3], row_sums := 0, col_sums := 0 }

/-- T8big: the (2, 8; 2, 2) torus produced by the even construction on
T8 with the seed 0011. -/
def T8big : TorusState :=
  { r := 2, s := 8, m := 2, n := 2, rows := [27, 228], row_sums := 0,
    col_sums := 255 }

/-- Witness for C8 at the concrete torus T8 with the order-2 seed 0011. -/
theorem C8_witness :
    T8big.row_sums = 0 ∧ (∀ v ∈ T8big.rows, popcount v % 2 = 0) ∧
      (Torus.transpose T8big).col_sums = 0 :=
  C8_even_construction_row_sums T8 [0, 0, 1, 1] T8big (by decide) (by decide)
    (by decide) (by decide) (by decide) (by decide)

/-! ### Claim C6 -/

/-- validValues: the caller-side contract of the constructor input: a
nonempty rectangular matrix of 0/1 values. -/
def validValues (values : List (List ℕ)) : Prop :=
  values ≠ [] ∧ ∀ row ∈ values,
    row.length = (values.headD []).length ∧ ∀ b ∈ row, b < 2

instance (values : List (List ℕ)) : Decidable (validValues values) := by
  unfold validValues
  infer_instance

/-- Reachable: the torus states that arise from a valid initial
construction followed by any sequence of transposes and successful
construction steps, where every construction step uses a seed of the
documented length (goodSeed covers the default seed as well) and writes
its full row set (numRows at least 2; the numRows = 1 even case leaves
the store empty and is the counterexample to the unamended claim). -/
inductive Reachable : TorusState → Prop
  | init (values : List (List ℕ)) (m n : ℕ) (T : TorusState) :
      validValues values → Torus.init values m n = .ok T → Reachable T
  | transpose (T : TorusState) : Reachable T → Reachable (Torus.transpose T)
  | make (T : TorusState) (sd : Option (List ℕ)) (T2 : TorusState) :
      Reachable T → goodSeed T sd → 2 ≤ numRowsOf T →
      Torus.make T sd = .ok T2 → Reachable T2

theorem reachable_invariant (T : TorusState) (h : Reachable T) :
    wf T ∧ T.row_sums = rowParityOf T.rows ∧ T.col_sums = colParityOf T.rows := by
  induction h with
  | init values m n T hvv hok =>
    obtain ⟨hne, hrows⟩ := hvv
    match values, hne with
    | v0 :: rest, _ =>
      simp only [Torus.init] at hok
      by_cases hc : (v0 :: rest).length * v0.length ≠ 2 ^ (m * n)
      · rw [if_pos hc] at hok
        exact Except.noConfusion hok
      · rw [if_neg hc] at hok
        push_neg at hc
        obtain rfl := Except.ok.inj hok
        refine ⟨⟨?_, ?_, hc⟩, rfl, rfl⟩
        · simp
        · intro v hv
          obtain ⟨row, hrow, rfl⟩ := List.mem_map.mp hv
          obtain ⟨hrl, hrb⟩ := hrows row hrow
          have := numOfBits_lt row hrb
          rwa [hrl] at this
  | transpose T hR ih =>
    obtain ⟨hwf, hrs, hcs⟩ := ih
    obtain ⟨hr1, hs1⟩ := wf_pos T hwf
    have hne := rows_ne_nil T hwf
    obtain ⟨hlen, hb, hdim⟩ := hwf
    refine ⟨wf_transpose T ⟨hlen, hb, hdim⟩, ?_, ?_⟩
    · show T.col_sums = rowParityOf (transposeRows T.s T.rows)
      rw [hcs, rowParity_transposeRows T.s T.rows hne hb]
    · show T.row_sums = colParityOf (transposeRows T.s T.rows)
      rw [hrs, colParity_transposeRows T.s T.rows hne hs1 hb]
  | make T sd T2 hR hgs h2 hok ih =>
    obtain ⟨hwf, -, -⟩ := ih
    have hdim2 := make_preserves_dim T sd T2 hwf.2.2 hok
    obtain ⟨hcase, rfl⟩ := make_ok_elim T sd T2 hok
    have hpow : ∃ a, numRowsOf T = 2 ^ a := numRowsOf_pow T hwf.2.2
    have hrows := makeCore_rows T (firstLineBits T sd) (numRowsOf T)
      (copiesOf T) h2 hpow
    obtain ⟨hsums1, hsums2⟩ := makeCore_sums T (firstLineBits T sd)
      (numRowsOf T) (copiesOf T)
    refine ⟨⟨?_, ?_, hdim2⟩, ?_, ?_⟩
    · rw [hrows]
      show _ = numRowsOf T
      simp only [List.length_cons, genRows_length, List.length_range]
      omega
    · obtain ⟨hgl, hgb⟩ := hgs
      have hl0 : numOfBits (firstLineBits T sd) < 2 ^ (T.s * copiesOf T) := by
        have := numOfBits_lt (firstLineBits T sd) hgb
        rwa [hgl] at this
      intro v hv
      rw [hrows] at hv
      show v < 2 ^ (T.s * copiesOf T)
      rcases List.mem_cons.mp hv with rfl | hv
      · exact hl0
      · exact genRows_mem_lt T.r T.s (copiesOf T) T.rows hwf.2.1 _ _ hl0 v hv
    · rw [hsums1, hrows]
    · rw [hsums2, hrows]

/-- Tdeg6: the (1, 1; 0, 2) all-zero torus, as produced by
Torus.init [[0]] 0 2.  The even construction applies with num_rows = 1,
so nothing is ever flushed to the store. -/
def Tdeg6 : TorusState :=
  { r := 1, s := 1, m := 0, n := 2, rows := [0], row_sums := 0, col_sums := 0 }

/-- Counterexample to C6 as stated: after the sequence init; make on
Tdeg6, the incrementally tracked col_sums is 3 (the exclusive-or of the
single constructed row 0011), but the store was left empty — the row was
never flushed — so recomputation from the stored rows yields 0. -/
theorem C6_counterexample :
    Torus.init [[0]] 0 2 = .ok Tdeg6 ∧
    Torus.make Tdeg6 none =
      .ok { r := 1, s := 4, m := 1, n := 2, rows := [],
            row_sums := 0, col_sums := 3 } ∧
    ¬ (3 : ℕ) = colParityOf ([] : List ℕ) := by
  refine ⟨by decide, ?_, by decide⟩
  decide

/-- C6 (amended): for every state reachable by an initial construction
followed by any sequence of transposes and construction steps in which
each step uses a seed of the documented length and writes its full row
set (numRows at least 2), the incrementally maintained summaries agree
with a full recomputation from the stored rows: row_sums is the mask of
per-row popcount parities and col_sums is the exclusive-or of all stored
rows.  (When a step runs with numRows = 1 the store is left empty and
col_sums diverges from the stored bytes, as the counterexample shows.) -/
theorem C6_summary_consistency (T : TorusState) (h : Reachable T) :
    T.row_sums = rowParityOf T.rows ∧ T.col_sums = colParityOf T.rows :=
  ⟨(reachable_invariant T h).2.1, (reachable_invariant T h).2.2⟩

/-- Witness for C6 at the docstring torus, reached by its initial
construction. -/
theorem C6_witness :
    T4.row_sums = rowParityOf T4.rows ∧ T4.col_sums = colParityOf T4.rows :=
  C6_summary_consistency T4
    (Reachable.init [[0, 0, 1, 0], [0, 0, 0, 1], [0, 1, 1, 1], [1, 0, 1, 1]]
      2 2 T4 (by decide) (by decide))

/-! ### Claim C2 -/

/-- FS: the observable file-system state during a store rewrite: the
content of the addressable store file and the content of the scratch
file (none when the scratch file does not exist). -/
structure FS where
  store : List ℕ
  temp : Option (List ℕ)
  deriving DecidableEq

/-- transposeTrace: the successive file-system states of a transpose
(torus.py lines 127-133): the initial state; after copyfile the scratch
holds the prior content; opening the primary with mode w+b truncates it
(the k = 0 entry of the write sequence); each written row extends the
primary; os.remove deletes the scratch. -/
def transposeTrace (T : TorusState) : List FS :=
  ⟨T.rows, none⟩ :: ⟨T.rows, some T.rows⟩ ::
    ((List.range ((transposeRows T.s T.rows).length + 1)).map
      (fun k => ⟨(transposeRows T.s T.rows).take k, some T.rows⟩) ++
     [⟨transposeRows T.s T.rows, none⟩])

/-- makeStates: the successive loop states of a construction step, one
per executed iteration (including the initial state before the loop). -/
def makeStates (T : TorusState) (l0bits : List ℕ) (numRows copies : ℕ) :
    List MkSt :=
  (List.range (numRows - 1)).scanl
    (makeStep T.r T.s copies (min numRows 1024) T.rows)
    { next := numOfBits l0bits, buffer := [numOfBits l0bits], written := [],
      rs := popcount (numOfBits l0bits) % 2, cs := numOfBits l0bits }

/-- makeTrace: the successive file-system states of a construction step
(torus.py lines 214-239): the initial state; after copyfile the scratch
holds the prior content; opening the primary truncates it, and at each
loop state the primary holds exactly the rows flushed so far; os.remove
deletes the scratch at the end. -/
def makeTrace (T : TorusState) (sd : Option (List ℕ)) : List FS :=
  ⟨T.rows, none⟩ :: ⟨T.rows, some T.rows⟩ ::
    ((makeStates T (firstLineBits T sd) (numRowsOf T) (copiesOf T)).map
      (fun st => ⟨st.written, some T.rows⟩) ++
     [⟨(makeLoop T (firstLineBits T sd) (numRowsOf T) (copiesOf T)).written,
       none⟩])

/-- PriorOrFinalOnly: the property C2 claims of the rewrite: at every
moment the addressable store holds either the complete prior content or
the complete new content — never a truncated or partially written
intermediate. -/
def PriorOrFinalOnly (prior newContent : List ℕ) (trace : List FS) : Prop :=
  ∀ fs ∈ trace, fs.store = prior ∨ fs.store = newContent

instance (prior newContent : List ℕ) (trace : List FS) :
    Decidable (PriorOrFinalOnly prior newContent trace) := by
  unfold PriorOrFinalOnly
  infer_instance

/-- Counterexample to C2 as stated: during the transpose of the
docstring torus the primary store file is truncated in place (the state
with empty store content and the scratch still holding the prior rows is
part of the trace) before any new content is written, so the prior store
is not left untouched until the new content is fully written: a
partially written primary is the addressable store mid-rewrite. -/
theorem C2_counterexample :
    FS.mk [] (some T4.rows) ∈ transposeTrace T4 ∧
    ¬ PriorOrFinalOnly T4.rows (transposeRows T4.s T4.rows)
        (transposeTrace T4) := by
  refine ⟨by decide, ?_⟩
  decide

/-- C2 (amended): the rewrite performed by transpose and by a
construction step is scratch-preserving in the opposite direction of the
claim: the complete prior content survives in the scratch file from the
copy until its removal at the very end, while the primary store file is
truncated and rewritten in place — every intermediate state of the
rewrite still has the full prior content available in the scratch file,
the trace starts with the prior store, and the final state's store holds
the complete new content with the scratch removed.  An I/O failure
mid-rewrite therefore loses nothing from the scratch copy but can leave
the addressable primary store truncated or partially written. -/
theorem C2_scratch_discipline :
    (∀ T : TorusState,
      (∀ fs ∈ ((transposeTrace T).drop 1).dropLast, fs.temp = some T.rows) ∧
      (transposeTrace T).head? = some ⟨T.rows, none⟩ ∧
      (transposeTrace T).getLast? =
        some ⟨transposeRows T.s T.rows, none⟩) ∧
    (∀ (T : TorusState) (sd : Option (List ℕ)) (T2 : TorusState),
      Torus.make T sd = .ok T2 →
      (∀ fs ∈ ((makeTrace T sd).drop 1).dropLast, fs.temp = some T.rows) ∧
      (makeTrace T sd).getLast? = some ⟨T2.rows, none⟩) := by
  have aux : ∀ (a b : FS) (mid : List FS) (last : FS),
      ((a :: b :: (mid ++ [last])).drop 1).dropLast = b :: mid ∧
      (a :: b :: (mid ++ [last])).getLast? = some last := by
    intro a b mid last
    constructor
    · show (b :: (mid ++ [last])).dropLast = b :: mid
      rw [show b :: (mid ++ [last]) = (b :: mid) ++ [last] from by simp,
        List.dropLast_concat]
    · rw [show a :: b :: (mid ++ [last]) = (a :: b :: mid) ++ [last] from by
        simp, List.getLast?_concat]
  constructor
  · intro T
    obtain ⟨hdl, hgl⟩ := aux ⟨T.rows, none⟩ ⟨T.rows, some T.rows⟩
      ((List.range ((transposeRows T.s T.rows).length + 1)).map
        (fun k => ⟨(transposeRows T.s T.rows).take k, some T.rows⟩))
      ⟨transposeRows T.s T.rows, none⟩
    refine ⟨?_, rfl, hgl⟩
    intro fs hfs
    simp only [transposeTrace] at hfs
    rw [hdl] at hfs
    rcases List.mem_cons.mp hfs with rfl | hfs
    · rfl
    · obtain ⟨k, -, rfl⟩ := List.mem_map.mp hfs
      rfl
  · intro T sd T2 hok
    obtain ⟨-, rfl⟩ := make_ok_elim T sd T2 hok
    obtain ⟨hdl, hgl⟩ := aux ⟨T.rows, none⟩ ⟨T.rows, some T.rows⟩
      ((makeStates T (firstLineBits T sd) (numRowsOf T) (copiesOf T)).map
        (fun st => ⟨st.written, some T.rows⟩))
      ⟨(makeLoop T (firstLineBits T sd) (numRowsOf T) (copiesOf T)).written,
        none⟩
    refine ⟨?_, hgl⟩
    intro fs hfs
    simp only [makeTrace] at hfs
    rw [hdl] at hfs
    rcases List.mem_cons.mp hfs with rfl | hfs
    · rfl
    · obtain ⟨st, -, rfl⟩ := List.mem_map.mp hfs
      rfl

/-- Witness for C2 at the docstring torus: the construction step on T4
keeps the scratch copy of the prior rows alive through every
intermediate state and ends with the new content addressable. -/
theorem C2_witness :
    (∀ fs ∈ ((makeTrace T4 none).drop 1).dropLast, fs.temp = some T4.rows) ∧
    (makeTrace T4 none).getLast? = some ⟨T4big.rows, none⟩ :=
  C2_scratch_discipline.2 T4 none T4big (by decide)

end DBT

